import Mathlib

/-!
# Verification of the LinkedIn-games puzzle solvers

A shallow embedding of the repository's two puzzle families and their shared
search architecture:

* the "Tango" balance puzzle solver (`src/unnamed/part_001`, with a
  fixed-board variant in `src/unnamed/part_002`), and
* the "Queens" exclusivity puzzle solver (`src/queens.js`, lines 328-1238,
  with an earlier variant in `src/unnamed/part_000`).

Modelling conventions, used consistently below:

* JS arrays of cells become `List`s; `board.cells[i]` becomes `List.getD`
  (all accesses exercised by the theorems are in bounds, matching the JS
  executions which would otherwise crash);
* JS numbers used as scores are modelled as exact rational arithmetic via
  the unreduced-fraction type `Q` (the heuristics only add, subtract,
  multiply and divide small exact values);
* `Array.prototype.sort` with a score comparator is stable (ES2019), and a
  stable comparison sort for a total preorder has a unique result, so it is
  modelled by a stable insertion sort on the score key;
* the JS object used as a visited-set keyed by hash strings is modelled as
  the list of hashes passed to `cacheState`, with membership lookup;
* the JS stack (push/pop at the array end) is modelled with the top of the
  stack at the head of a list, so pushing a batch appends its reverse;
* `Math.random` driven code takes an explicit oracle stream of rationals;
* a JS `throw` is modelled as `Except.error` of the thrown message.
-/

namespace LinkedinGames

/-- `range n` — the JS helper producing `[0, …, n-1]`. -/
def range (n : Nat) : List Nat := List.range n

/-- Stable insertion of `a` into `l` before the first element `b` with
`le a b`; the building block of the model of JS `Array.prototype.sort`. -/
def ordIns {α : Type} (le : α → α → Bool) (a : α) : List α → List α
  | [] => [a]
  | b :: l => if le a b then a :: b :: l else b :: ordIns le a l

/-- Stable sort by the boolean relation `le`; models JS `sort(cmp)` where
`cmp x y ≤ 0 ↔ le x y` for a total preorder comparator. -/
def sortBy {α : Type} (le : α → α → Bool) : List α → List α
  | [] => []
  | a :: l => ordIns le a (sortBy le l)

/-- An exact rational score value, as an unreduced fraction. JS numbers used
as heuristic scores are modelled by exact rational arithmetic; fractions are
kept unreduced (kernel-computable, unlike `ℚ`'s gcd normalisation), with the
denominator kept positive by every operation whenever it is positive in the
operands (which holds in every non-degenerate use below). -/
structure Q where
  num : Int
  den : Int
deriving DecidableEq, Repr

namespace Q

/-- Embed an integer. -/
def ofInt (n : Int) : Q := ⟨n, 1⟩

/-- Embed a natural number. -/
def ofNat (n : Nat) : Q := ⟨(n : Int), 1⟩

/-- Fraction addition. -/
def add (a b : Q) : Q := ⟨a.num * b.den + b.num * a.den, a.den * b.den⟩

/-- Fraction subtraction. -/
def sub (a b : Q) : Q := ⟨a.num * b.den - b.num * a.den, a.den * b.den⟩

/-- Fraction multiplication. -/
def mul (a b : Q) : Q := ⟨a.num * b.num, a.den * b.den⟩

/-- Fraction division, normalising the sign so that the result's
denominator stays positive when the operands' are. -/
def div (a b : Q) : Q :=
  if b.num < 0 then ⟨-(a.num * b.den), -(a.den * b.num)⟩
  else ⟨a.num * b.den, a.den * b.num⟩

instance : Add Q := ⟨add⟩
instance : Sub Q := ⟨sub⟩
instance : Mul Q := ⟨mul⟩
instance : Div Q := ⟨div⟩
instance (n : Nat) : OfNat Q n := ⟨⟨(n : Int), 1⟩⟩

/-- Value comparison by cross-multiplication; correct whenever both
denominators are positive. -/
def leB (a b : Q) : Bool := decide (a.num * b.den ≤ b.num * a.den)

/-- `Q.sum` of a list of scores. -/
def sumL (l : List Q) : Q := l.foldr add ⟨0, 1⟩

end Q

/-- A grid position `{ x, y }` (all positions dereferenced by the code are
non-negative; neighbourhood generation, which can go negative, converts
through `Int` before its bounds filter). -/
structure Pos where
  x : Nat
  y : Nat
deriving DecidableEq, Repr

/-- `ind({x, y}, width)` — position to row-major index. -/
def ind (p : Pos) (width : Nat) : Nat := p.y * width + p.x

/-- `pos(i, width)` — row-major index to position. -/
def posOf (i width : Nat) : Pos := ⟨i % width, i / width⟩

/-- Ascending list of the distinct `Nat` keys occurring in `l`: the
enumeration order of a JS object whose keys are non-negative integers
(integer-like keys enumerate in ascending numeric order). -/
def ascKeys (l : List Nat) : List Nat :=
  (range (l.foldr max 0 + 1)).filter (fun k => l.contains k)

namespace Tango

/-! ## The Tango (balance) puzzle, from `src/unnamed/part_001`

Cells hold `'s'`, `'m'` or `null`; pairwise constraints are `'equals'` or
`'opposites'` between two positions. -/

/-- A committed cell value: sun or moon. -/
inductive Val where
  | s
  | m
deriving DecidableEq, Repr

/-- A cell: `'s' | 'm' | null`. -/
abbrev TCell := Option Val

/-- A constraint kind: `'equals' | 'opposites'`. -/
inductive CType where
  | equals
  | opposites
deriving DecidableEq, Repr

/-- `{ type, a, b }` — a pairwise constraint between two cell positions. -/
structure Constr where
  type : CType
  a : Pos
  b : Pos
deriving DecidableEq, Repr

/-- A Tango board: `{ width, height, cells, initialCells, constraints }`
(the shape produced by `initialiseBoard`/`cloneBoard`). -/
structure Board where
  width : Nat
  height : Nat
  cells : List TCell
  initialCells : List Nat
  constraints : List Constr
deriving DecidableEq, Repr

/-- `board.cells[i]` (all dereferences in the executions considered are in
bounds; JS `undefined` out of bounds is conflated with `null`, both falsy). -/
def cellIdx (b : Board) (i : Nat) : TCell := b.cells.getD i none

/-- `getRow(board, y)`. -/
def getRow (b : Board) (y : Nat) : List TCell :=
  (range b.width).map fun x => cellIdx b (ind ⟨x, y⟩ b.width)

/-- `getColumn(board, x)`. -/
def getColumn (b : Board) (x : Nat) : List TCell :=
  (range b.height).map fun y => cellIdx b (ind ⟨x, y⟩ b.width)

/-- `countEntries(a, v)`. -/
def countEntries (a : List TCell) (v : TCell) : Nat :=
  (a.filter (fun e => e = v)).length

/-- `countEmpties(a)`. -/
def countEmpties (a : List TCell) : Nat := countEntries a none

/-- Helper for `rle`: the current run value/length followed by the rest.
A `null` cell, or a change of value, always starts a new run. -/
def rleGo : TCell → Nat → List TCell → List (TCell × Nat)
  | v, n, [] => [(v, n)]
  | v, n, c :: rest =>
    if c ≠ none ∧ c = v then rleGo v (n + 1) rest
    else (v, n) :: rleGo c 1 rest

/-- `rle(arr)` — run-length encoding, with `null` runs filtered out. -/
def rle : List TCell → List (TCell × Nat)
  | [] => []
  | c :: rest => (rleGo c 1 rest).filter (fun r => r.1 ≠ none)

/-- `longestRun(a)`. JS returns `-Infinity` on an empty run list; it is only
compared against `> 2` and `< 3`, for which `0` behaves identically. -/
def longestRun (a : List TCell) : Nat :=
  ((rle a).map (fun r => r.2)).foldr max 0

/-- `cartesian(range(n), ['m', 's'])` — the index/value pairs enumerated by
`getValidMoves`, in JS iteration order. -/
def indexValuePairs (n : Nat) : List (Nat × Val) :=
  (range n).flatMap fun i => [(i, Val.m), (i, Val.s)]

/-- `satisfied(constraint, a, b)`. -/
def satisfied (c : Constr) (a b : TCell) : Bool :=
  match c.type with
  | CType.equals => a = b
  | CType.opposites => a ≠ b

/-- `addValueAtPosition(board, p, v)` — clone with one cell set. -/
def addValueAtPosition (b : Board) (p : Pos) (v : TCell) : Board :=
  { b with cells := b.cells.set (ind p b.width) v }

/-- `checkRunAtPosition(board, p, v)` — would placing `v` at `p` create a
run of 3 or more in its row or column? -/
def checkRunAtPosition (b : Board) (p : Pos) (v : TCell) : Bool :=
  let row := getRow b p.y
  if longestRun (row.set p.x v) > 2 then false
  else
    let column := getColumn b p.x
    if longestRun (column.set p.y v) > 2 then false
    else true

/-- `checkWin(board)` — the terminal test for the balance puzzle. -/
def checkWin (b : Board) : Bool :=
  (!b.cells.contains none) &&
  ((range b.height).all fun y =>
    let row := getRow b y
    countEntries row (some Val.s) = countEntries row (some Val.m)) &&
  ((range b.width).all fun x =>
    let column := getColumn b x
    countEntries column (some Val.s) = countEntries column (some Val.m)) &&
  ((range b.height).all fun y => longestRun (getRow b y) < 3) &&
  ((range b.width).all fun x => longestRun (getColumn b x) < 3) &&
  (b.constraints.all fun c =>
    satisfied c (cellIdx b (ind c.a b.width)) (cellIdx b (ind c.b b.width)))

/-- `isValidMove(board, p, v)` — the generator's single-move legality test
(constraints are checked on current values only). -/
def isValidMove (b : Board) (p : Pos) (v : Val) : Bool :=
  (cellIdx b (ind p b.width) = none) &&
  checkRunAtPosition b p (some v) &&
  (2 * countEntries (getRow b p.y) (some v) < b.width) &&
  (2 * countEntries (getColumn b p.x) (some v) < b.height) &&
  (b.constraints.all fun c =>
    let a := cellIdx b (ind c.a b.width)
    let bb := cellIdx b (ind c.b b.width)
    a = none || bb = none || satisfied c a bb)

/-- A candidate move `{ p, v }`. -/
structure Move where
  p : Pos
  v : Val
deriving DecidableEq, Repr

/-- `getValidMoves(board)` — all legal single placements; constraints with
an unresolved endpoint are treated optimistically, substituting the move's
value at the endpoint it would fill. -/
def getValidMoves (b : Board) : List Move :=
  ((indexValuePairs (b.height * b.width)).filter fun iv =>
    let i := iv.1
    let v := iv.2
    let p := posOf i b.width
    (cellIdx b i = none) &&
    checkRunAtPosition b p (some v) &&
    (2 * countEntries (getRow b p.y) (some v) < b.width) &&
    (2 * countEntries (getColumn b p.x) (some v) < b.height) &&
    (b.constraints.all fun c =>
      let aIndex := ind c.a b.width
      let bIndex := ind c.b b.width
      let a := if cellIdx b aIndex = none ∧ i = aIndex then some v
               else cellIdx b aIndex
      let bb := if cellIdx b bIndex = none ∧ i = bIndex then some v
                else cellIdx b bIndex
      a = none || bb = none || satisfied c a bb)).map
    fun iv => ⟨posOf iv.1 b.width, iv.2⟩

/-- One pass of `collapse`: the forced positions — still-empty cells with
exactly one valid move — in ascending index order, with the forced value.
`getValidMoves` is computed once, on the input board, as in the source. -/
def forcedMoves (b : Board) : List (Pos × Val) :=
  let validMoves := getValidMoves b
  (range b.cells.length).filterMap fun i =>
    let p := posOf i b.width
    if cellIdx b i ≠ none then none
    else
      match validMoves.filter (fun mv => mv.p.x = p.x ∧ mv.p.y = p.y) with
      | [mv] => some (p, mv.v)
      | _ => none

/-- The body of one `collapse` recursion level: commit every forced move. -/
def collapsePass (b : Board) : Board :=
  (forcedMoves b).foldl (fun acc pv => addValueAtPosition acc pv.1 (some pv.2)) b

/-- Fuel-indexed `collapse` recursion (each changed pass fills at least one
empty cell, so `countEmpties + 1` fuel always reaches the fixpoint). -/
def collapseFuel : Nat → Board → Board
  | 0, b => b
  | n + 1, b =>
    if forcedMoves b = [] then b
    else collapseFuel n (collapsePass b)

/-- `collapse(board)` — recursively commit every cell with a unique valid
move, to a fixpoint. -/
def collapse (b : Board) : Board :=
  collapseFuel (countEmpties b.cells + 1) b

/-- `hashState(state)` — the canonical serialization
`cells.map(v => v || ' ').join('')`, as its character list. -/
def hashState (b : Board) : List Char :=
  b.cells.map fun c =>
    match c with
    | some Val.s => 's'
    | some Val.m => 'm'
    | none => ' '

/-- `remap(i, a1, a2, b1, b2)` — linear range remap, on exact rationals. -/
def remap (i a1 a2 b1 b2 : Q) : Q := b1 + (i - a1) * (b2 - b1) / (a2 - a1)

/-- `{ s: 'm', m: 's' }[v]` — the opposite symbol. -/
def oppOf : Val → Val
  | Val.s => Val.m
  | Val.m => Val.s

/-- `heuristic(board, move)` — scores a post-move state (JS numbers are
modelled as exact rationals; all operations here are `+`, `-`, `/` on small
integers). -/
def heuristic (b : Board) (move : Move) : Q :=
  let constraintScore : Q := Q.sumL (b.constraints.map fun c =>
    let moveIndex := ind move.p b.width
    let aIndex := ind c.a b.width
    let bIndex := ind c.b b.width
    if moveIndex = aIndex ∨ moveIndex = bIndex then
      (100 : Q) +
      (if cellIdx b aIndex ≠ none ∨ cellIdx b bIndex ≠ none then (10000 : Q)
       else 0) +
      (if c.type = CType.equals then
        (if c.a.y = c.b.y then
          (let before : Int := (min c.a.x c.b.x : Int) - 1
           if 0 ≤ before then
             match cellIdx b (ind ⟨before.toNat, c.a.y⟩ b.width) with
             | some w => if w ≠ move.v then (10000 : Q) else 0
             | none => 0
           else 0) +
          (let after : Nat := max c.a.x c.b.x + 1
           if after < b.width then
             match cellIdx b (ind ⟨after, c.a.y⟩ b.width) with
             | some w => if w ≠ move.v then (10000 : Q) else 0
             | none => 0
           else 0)
         else 0) +
        (if c.a.x = c.b.x then
          (let before : Int := (min c.a.y c.b.y : Int) - 1
           if 0 ≤ before then
             match cellIdx b (ind ⟨c.a.x, before.toNat⟩ b.width) with
             | some w => if w ≠ move.v then (10000 : Q) else 0
             | none => 0
           else 0) +
          (let after : Nat := max c.a.y c.b.y + 1
           if after < b.height then
             match cellIdx b (ind ⟨c.a.x, after⟩ b.width) with
             | some w => if w ≠ move.v then (10000 : Q) else 0
             | none => 0
           else 0)
         else 0)
       else 0)
    else 0)
  let row := getRow b move.p.y
  let column := getColumn b move.p.x
  let fillScore : Q :=
    remap (Q.ofNat (countEmpties row)) (Q.ofNat b.width) 0 0 20 +
    remap (Q.ofNat (countEmpties column)) 0 (Q.ofNat b.height) 0 20
  let halfWidth : Int := b.width / 2
  let halfHeight : Int := b.height / 2
  let bonus : Q :=
    (if (countEntries row (some move.v) : Int) = halfWidth - 1 then (500 : Q)
     else 0) +
    (if (countEntries column (some move.v) : Int) = halfHeight - 1 then
      (500 : Q) else 0) +
    (if (countEntries row (some (oppOf move.v)) : Int) = halfWidth then
      (500 : Q) else 0) +
    (if (countEntries column (some (oppOf move.v)) : Int) = halfHeight then
      (500 : Q) else 0)
  constraintScore + fillScore + bonus

/-- An adjacent vertex record `{ move, state, h }` built by `solve`. -/
structure Adj where
  move : Move
  state : Board
  h : Q
deriving DecidableEq, Repr

/-- The `adjacentVertices` list of one expansion step, before filtering. -/
def adjacents (v : Board) : List Adj :=
  (getValidMoves v).map fun mv =>
    let st := addValueAtPosition v mv.p (some mv.v)
    ⟨mv, st, heuristic st mv⟩

/-- The candidates surviving the visited filter (checked on the
pre-propagation state `adjacent.state`). -/
def surviving (v : Board) (visited : List (List Char)) : List Adj :=
  (adjacents v).filter fun a => !visited.contains (hashState a.state)

/-- Survivors sorted ascending by heuristic score
(`sort((a, b) => a.h - b.h)`, a stable sort). -/
def sortedSurviving (v : Board) (visited : List (List Char)) : List Adj :=
  sortBy (fun a b => Q.leB a.h b.h) (surviving v visited)

/-- The JS value returned by `solve`: `true`, `false`, or (with
`output = false`) the solved board. -/
inductive SolveResult where
  | bool (b : Bool)
  | board (b : Board)
deriving DecidableEq, Repr

/-- The observable behaviour of one `solve` invocation: the sequence of
states popped from the stack, in order, and the returned value. -/
structure SolveTrace where
  popped : List Board
  result : SolveResult
deriving DecidableEq, Repr

/-- The `solve` search loop. The stack's top is at the head of the list, so
pushing the sorted batch appends its reverse; `visited` is the list of
hashes passed to `cacheState`, in call order; note that `collapse` is
applied to the pushed state while the hash cached is that of the
pre-propagation `adjacent.state`, exactly as in the source. -/
def solveLoop (output : Bool) :
    Nat → List Board → List (List Char) → List Board → SolveTrace
  | 0, _, _, acc => ⟨acc.reverse, SolveResult.bool false⟩
  | _ + 1, [], _, acc => ⟨acc.reverse, SolveResult.bool false⟩
  | fuel + 1, v :: rest, visited, acc =>
    if checkWin v then
      ⟨(v :: acc).reverse,
       if output then SolveResult.bool true else SolveResult.board v⟩
    else
      let s := sortedSurviving v visited
      solveLoop output fuel ((s.map fun a => collapse a.state).reverse ++ rest)
        (visited ++ s.map fun a => hashState a.state) (v :: acc)

/-- `solve(board, maxIterations, output)` with its popped-state trace. -/
def solve (b : Board) (maxIterations : Nat) (output : Bool) : SolveTrace :=
  solveLoop output maxIterations [b] [hashState b] []

/-- The `visited` cache at the moment the `solve` loop exits: the same
recursion as `solveLoop`, observed at its cache instead of its return
value (the cache's evolution does not depend on `output`). -/
def solveLoopVisited : Nat → List Board → List (List Char) → List (List Char)
  | 0, _, visited => visited
  | _ + 1, [], visited => visited
  | fuel + 1, v :: rest, visited =>
    if checkWin v then visited
    else
      let s := sortedSurviving v visited
      solveLoopVisited fuel ((s.map fun a => collapse a.state).reverse ++ rest)
        (visited ++ s.map fun a => hashState a.state)

/-- The final `visited` cache of `solve(board, maxIterations, output)`:
the start hash followed by every hash passed to `cacheState`, in call
order. -/
def solveVisited (b : Board) (maxIterations : Nat) : List (List Char) :=
  solveLoopVisited maxIterations [b] [hashState b]

/-- `MAX_SOLVER_ITERATIONS`. -/
def MAX_SOLVER_ITERATIONS : Nat := 100000

/-- `MAX_GENERATOR_ITERATIONS`. -/
def MAX_GENERATOR_ITERATIONS : Nat := 50

/-- `MAX_GENERATOR_SOLVER_ITERATIONS`. -/
def MAX_GENERATOR_SOLVER_ITERATIONS : Nat := 100

/-- The generator options record; `generateGame` receives the result of
merging `DEFAULT_GENERATOR_OPTIONS` with the caller's options. -/
structure GenOptions where
  minInitialCells : Nat
  maxInitialCells : Nat
  minConstraints : Nat
  maxConstraints : Nat
  allowConstraintsOnInitialCells : Bool
deriving DecidableEq, Repr

/-- `DEFAULT_GENERATOR_OPTIONS`. -/
def DEFAULT_GENERATOR_OPTIONS : GenOptions := ⟨2, 10, 4, 16, true⟩

/-- An oracle for `Math.random()`: the stream of its successive outputs
(each intended in `[0, 1)`), consumed left to right; `0` once exhausted. -/
structure Rng where
  stream : List Q
deriving Repr

/-- Draw the next `Math.random()` output. -/
def Rng.next (r : Rng) : Q × Rng := (r.stream.headD ⟨0, 1⟩, ⟨r.stream.tail⟩)

/-- `Math.floor` of a score value (denominator positive in all uses). -/
def qFloor (q : Q) : Int := Int.fdiv q.num q.den

/-- `randomInt(min, max)` — `floor(random() * (max - min)) + min`. -/
def randomInt (lo hi : Int) (r : Rng) : Int × Rng :=
  let (q, r') := r.next
  (qFloor (Q.mul q (Q.ofInt (hi - lo))) + lo, r')

/-- One swap round of the Fisher-Yates `shuffle`, for index `i ≥ 1`:
`j = randomInt(0, i + 1)`, then swap elements `i` and `j`. -/
def shuffleSwap {α : Type} (l : List α) (i : Nat) (r : Rng) : List α × Rng :=
  let (j, r') := randomInt 0 ((i : Int) + 1) r
  let jn := j.toNat
  match l.get? i, l.get? jn with
  | some vi, some vj => ((l.set i vj).set jn vi, r')
  | _, _ => (l, r')

/-- Fisher-Yates `shuffle`, iterating `i` from `length - 1` down to `1`. -/
def shuffleGo {α : Type} : Nat → List α → Rng → List α × Rng
  | 0, l, r => (l, r)
  | i + 1, l, r =>
    let (l', r') := shuffleSwap l (i + 1) r
    shuffleGo i l' r'

/-- `shuffle(a)`. -/
def shuffle {α : Type} (l : List α) (r : Rng) : List α × Rng :=
  shuffleGo (l.length - 1) l r

/-- `manhattanDistance(a, b)`. -/
def manhattanDistance (a b : Pos) : Nat :=
  ((a.x : Int) - b.x).natAbs + ((a.y : Int) - b.y).natAbs

/-- `initialiseBoard(board)` — record the indices of the pre-populated
cells. -/
def initialiseBoard (b : Board) : Board :=
  { b with
    initialCells := (range b.cells.length).filter fun i => cellIdx b i ≠ none }

/-- `resetBoard(board)` — clear every cell not recorded in `initialCells`,
keeping dimensions and constraints. -/
def resetBoard (b : Board) : Board :=
  { b with
    cells := b.cells.mapIdx fun i c =>
      if b.initialCells.contains i then c else none }

/-- The cell-population loop of `generateGame`: pop shuffled candidate
indices from the end, draw a value by shuffling `['s', 'm']` and taking the
last element, and commit it when `isValidMove` accepts it, until the
requested number of cells is placed or the candidates run out. -/
def populateGo : Nat → Board → Int → List Nat → Rng → Board × Rng
  | 0, b, _, _, r => (b, r)
  | fuel + 1, b, remaining, cand, r =>
    if remaining > 0 ∧ cand ≠ [] then
      match cand.getLast? with
      | none => (b, r)
      | some i =>
        let cand' := cand.dropLast
        let p := posOf i b.width
        let (vals, r') := shuffle [Val.s, Val.m] r
        let v := vals.getLastD Val.m
        if isValidMove b p v then
          populateGo fuel (addValueAtPosition b p (some v)) (remaining - 1)
            cand' r'
        else
          populateGo fuel b remaining cand' r'
    else (b, r)

/-- The orthogonally-adjacent position pairs considered for constraints, in
the order produced by `cartesian` over four copies of `range(size)`
(lexicographic in `(x1, y1, x2, y2)`) filtered to Manhattan distance 1. -/
def adjacentPairs (size : Nat) : List (Pos × Pos) :=
  ((range size).flatMap fun x1 =>
    (range size).flatMap fun y1 =>
      (range size).flatMap fun x2 =>
        (range size).map fun y2 => (Pos.mk x1 y1, Pos.mk x2 y2)).filter
    fun ab => manhattanDistance ab.1 ab.2 = 1

/-- The constraint-candidate filter on a pair, driven by
`allowConstraintsOnInitialCells`. -/
def pairAllowed (opts : GenOptions) (b : Board) (size : Nat)
    (ab : Pos × Pos) : Bool :=
  if opts.allowConstraintsOnInitialCells then
    !(b.initialCells.contains (ind ab.1 size)) ||
    !(b.initialCells.contains (ind ab.2 size))
  else
    !(b.initialCells.contains (ind ab.1 size)) &&
    !(b.initialCells.contains (ind ab.2 size))

/-- The seed-and-solve retry loop of `generateGame`. Returns the solved
board (the loop exits only with `solvable` true, since on the iteration the
budget runs out the loop-top check throws first). -/
def genSeekSolvable (size : Nat) (opts : GenOptions) :
    Nat → Nat → Rng → Except String (Board × Rng)
  | 0, _, _ => Except.error "Failed to generate a valid board"
  | fuel + 1, iterations, r =>
    if iterations ≥ MAX_GENERATOR_ITERATIONS then
      Except.error "Failed to generate a valid board"
    else
      let empty : Board :=
        ⟨size, size, List.replicate (size * size) none, [], []⟩
      let (remaining, r1) :=
        randomInt opts.minInitialCells opts.maxInitialCells r
      let (shuffledCells, r2) := shuffle (range (size * size)) r1
      let (seeded, r3) :=
        populateGo (size * size + 1) empty remaining shuffledCells r2
      let seeded := initialiseBoard seeded
      match (solve seeded MAX_GENERATOR_SOLVER_ITERATIONS false).result with
      | SolveResult.board sol => Except.ok (sol, r3)
      | _ => genSeekSolvable size opts fuel (iterations + 1) r3

/-- `generateGame(size, options)` — the balance-family generator. An odd
`size` throws `'Size must be even'` before any random draw; an exhausted
attempt budget throws `'Failed to generate a valid board'`; a JS `throw` is
modelled as `Except.error` of the message. -/
def generateGame (size : Nat) (opts : GenOptions) (r : Rng) :
    Except String Board :=
  if size % 2 ≠ 0 then Except.error "Size must be even"
  else
    match genSeekSolvable size opts (MAX_GENERATOR_ITERATIONS + 2) 0 r with
    | Except.error e => Except.error e
    | Except.ok (sol, r') =>
      let candidates :=
        (adjacentPairs size).filter (pairAllowed opts sol size)
      let (shuffled, r'') := shuffle candidates r'
      let (nc, _) := randomInt opts.minConstraints opts.maxConstraints r''
      let chosen := shuffled.take nc.toNat
      let withConstraints :=
        { sol with
          constraints := sol.constraints ++ chosen.map fun ab =>
            ⟨if cellIdx sol (ind ab.1 size) = cellIdx sol (ind ab.2 size)
              then CType.equals else CType.opposites, ab.1, ab.2⟩ }
      Except.ok (resetBoard withConstraints)

end Tango

namespace Queens

/-! ## The Queens (exclusivity) puzzle, from `src/queens.js` (second,
mark-aware solver, lines 328 onward)

Cells carry a region id `r`, a queen flag `q` and an invalid-mark flag `m`.
`getInvalidPlacements` is partial: on a board where some unoccupied region
has all of its cells marked, the JS `cells.every(...)` guard is vacuously
true and `cells[0].p.x` throws a `TypeError`; this is modelled by an
`Option` result that propagates through `collapse` and `solve`. -/

/-- A cell `{ r, q, m }`. -/
structure Cell where
  r : Nat
  q : Bool
  m : Bool
deriving DecidableEq, Repr

/-- A board `{ width, height, cells }`. -/
structure Board where
  width : Nat
  height : Nat
  cells : List Cell
deriving DecidableEq, Repr

/-- The `getD` fallback cell (all dereferences exercised by the theorems
are in bounds). -/
def defaultCell : Cell := ⟨0, false, false⟩

/-- `board.cells[i]`. -/
def cellIdx (b : Board) (i : Nat) : Cell := b.cells.getD i defaultCell

/-- `mooreNeighbourhood(p, width, height)` — the 3×3 area around `p`
(including `p`), `y`-major, filtered to the board bounds. -/
def moore (p : Pos) (w h : Nat) : List Pos :=
  (((range 3).flatMap fun dy => (range 3).map fun dx =>
      (((p.x : Int) + dx - 1), ((p.y : Int) + dy - 1))).filter fun c =>
    decide (0 ≤ c.1) && decide (c.1 < (w : Int)) &&
    decide (0 ≤ c.2) && decide (c.2 < (h : Int))).map
    fun c => Pos.mk c.1.toNat c.2.toNat

/-- `countQueens(cells)`. -/
def countQueens (cells : List Cell) : Nat := (cells.filter (fun c => c.q)).length

/-- `hasOneQueen(cells)`. -/
def hasOneQueen (cells : List Cell) : Bool := countQueens cells = 1

/-- `positionIsMarked(board, p)`. -/
def positionIsMarked (b : Board) (p : Pos) : Bool :=
  (cellIdx b (ind p b.width)).m

/-- `getRow(board, y)`. -/
def getRow (b : Board) (y : Nat) : List Cell :=
  (range b.width).map fun x => cellIdx b (ind ⟨x, y⟩ b.width)

/-- `getColumn(board, x)`. -/
def getColumn (b : Board) (x : Nat) : List Cell :=
  (range b.height).map fun y => cellIdx b (ind ⟨x, y⟩ b.width)

/-- `getRegionIndices(board, r)`. -/
def getRegionIndices (b : Board) (r : Nat) : List Nat :=
  (range (b.width * b.height)).filter fun i => (cellIdx b i).r = r

/-- `Object.values(groupByRegion(board))` — the cell groups per region id,
in ascending region-id order (JS integer-like keys enumerate ascending),
each group in cell order. -/
def regionValues (b : Board) : List (List Cell) :=
  (ascKeys (b.cells.map (fun c => c.r))).map fun rid =>
    b.cells.filter (fun c => c.r = rid)

/-- `groupByRegion(board)[rid]` — the cells of one region. -/
def regionCells (b : Board) (rid : Nat) : List Cell :=
  b.cells.filter (fun c => c.r = rid)

/-- `getQueens(board)` — indices of all queens, ascending. -/
def getQueens (b : Board) : List Nat :=
  (range b.cells.length).filter fun i => (cellIdx b i).q

/-- `getQueenArea(board, q)` — the cells of the Moore neighbourhood of the
queen at index `q`. -/
def getQueenArea (b : Board) (qi : Nat) : List Cell :=
  (moore (posOf qi b.width) b.width b.height).map fun p =>
    cellIdx b (ind p b.width)

/-- `clearPosition(board, p)` — clone with the queen and mark flags cleared
at `p`. -/
def clearPosition (b : Board) (p : Pos) : Board :=
  let i := ind p b.width
  let c := cellIdx b i
  { b with cells := b.cells.set i { c with q := false, m := false } }

/-- `addQueenAtPosition(board, p)` — clone with a queen placed at `p`. -/
def addQueenAtPosition (b : Board) (p : Pos) : Board :=
  let i := ind p b.width
  let c := cellIdx b i
  { b with cells := b.cells.set i { c with q := true } }

/-- `markInvalidPositions(board, pp)` — clone with every listed position
marked invalid. -/
def markInvalidPositions (b : Board) (pp : List Pos) : Board :=
  pp.foldl (fun acc p =>
    let i := ind p acc.width
    let c := cellIdx acc i
    { acc with cells := acc.cells.set i { c with m := true } }) b

/-- `checkWin(board)` — one queen per column, row and region, and no two
queens 8-adjacent. -/
def checkWin (b : Board) : Bool :=
  ((range b.width).all fun x => hasOneQueen (getColumn b x)) &&
  ((range b.height).all fun y => hasOneQueen (getRow b y)) &&
  ((regionValues b).all fun rcells => hasOneQueen rcells) &&
  ((getQueens b).all fun qi => hasOneQueen (getQueenArea b qi))

/-- `getValidPlacements(board)` — positions admitting a queen without an
immediate row/column/region/adjacency conflict. -/
def getValidPlacements (b : Board) : List Pos :=
  ((range (b.width * b.height)).filter fun i =>
    let p := posOf i b.width
    (!(cellIdx b i).q) &&
    (countQueens (getRow b p.y) = 0) &&
    (countQueens (getColumn b p.x) = 0) &&
    (countQueens (regionCells b (cellIdx b i).r) = 0) &&
    (countQueens (getQueenArea b i) = 0)).map fun i => posOf i b.width

/-- The per-index cell entries `{ p, r, q, m }` built by
`getInvalidPlacements`' region reduce. -/
def withPos (b : Board) : List (Pos × Cell) :=
  (range b.cells.length).map fun i => (posOf i b.width, cellIdx b i)

/-- Rule 1 of `getInvalidPlacements`, for one unoccupied region's unmarked
cells: if they share a column, the rest of that column is invalid; if they
share a row, the rest of that row is invalid. On an empty cell list the JS
code throws (`cells[0]` is `undefined`), modelled by `none`. -/
def invalidOfRegion (b : Board) (cs : List (Pos × Cell)) : Option (List Pos) :=
  match cs with
  | [] => none
  | c0 :: _ =>
    let colPart :=
      if cs.all (fun c => c.1.x = c0.1.x) then
        ((range b.height).map fun y => Pos.mk c0.1.x y).filter fun p =>
          !((cs.map fun c => c.1.y).contains p.y)
      else []
    let rowPart :=
      if cs.all (fun c => c.1.y = c0.1.y) then
        ((range b.width).map fun x => Pos.mk x c0.1.y).filter fun p =>
          !((cs.map fun c => c.1.x).contains p.x)
      else []
    some (colPart ++ rowPart)

/-- Rule 1 over all unoccupied regions, concatenated in region order. -/
def invRegionsGo (b : Board) : List (List (Pos × Cell)) → Option (List Pos)
  | [] => some []
  | g :: gs =>
    match invalidOfRegion b g, invRegionsGo b gs with
    | some l, some ls => some (l ++ ls)
    | _, _ => none

/-- Rule 2, rows: in an unoccupied row whose unmarked cells all belong to a
single region, that region's cells outside the row are invalid. -/
def rowRuleInvalids (b : Board) : List Pos :=
  (range b.height).flatMap fun y =>
    if (getRow b y).any (fun c => c.q) then []
    else
      match (((getRow b y).filter fun c => !c.m).map
          fun c => c.r).eraseDups with
      | [rid] =>
        (getRegionIndices b rid).filterMap fun i =>
          let p := posOf i b.width
          if p.y ≠ y then some p else none
      | _ => []

/-- Rule 2, columns: symmetric to `rowRuleInvalids`. -/
def colRuleInvalids (b : Board) : List Pos :=
  (range b.width).flatMap fun x =>
    if (getColumn b x).any (fun c => c.q) then []
    else
      match (((getColumn b x).filter fun c => !c.m).map
          fun c => c.r).eraseDups with
      | [rid] =>
        (getRegionIndices b rid).filterMap fun i =>
          let p := posOf i b.width
          if p.x ≠ x then some p else none
      | _ => []

/-- The unmarked cell entries of each unoccupied region, in ascending
region-id order: `cellsByUnoccupiedRegion` of the source. -/
def unoccRegionGroups (b : Board) : List (List (Pos × Cell)) :=
  ((((ascKeys (b.cells.map fun c => c.r)).map fun rid =>
    (withPos b).filter fun c => c.2.r = rid).filter
      fun g => !(g.any fun c => c.2.q)).map fun g =>
        g.filter fun c => !c.2.m)

/-- `getInvalidPlacements(board)` — elimination-derived positions that
cannot hold a queen, filtered to those not already marked. -/
def getInvalidPlacements (b : Board) : Option (List Pos) :=
  match invRegionsGo b (unoccRegionGroups b) with
  | none => none
  | some l1 =>
    some ((l1 ++ rowRuleInvalids b ++ colRuleInvalids b).filter fun p =>
      !(positionIsMarked b p))

/-- `[p]` pattern of the `region.length === 1` commit test. -/
def singleOf : List Pos → Option Pos
  | [p] => some p
  | _ => none

/-- The queen commitments of one `collapse` pass: rows, then columns, then
regions with exactly one valid placement, groups in ascending key order. -/
def commitsOf (b : Board) : List Pos :=
  let vp := getValidPlacements b
  let rowGroups := (ascKeys (vp.map fun p => p.y)).map fun y =>
    vp.filter (fun p => p.y = y)
  let colGroups := (ascKeys (vp.map fun p => p.x)).map fun x =>
    vp.filter (fun p => p.x = x)
  let regGroups := (ascKeys (vp.map fun p => (cellIdx b (ind p b.width)).r)).map
    fun rid => vp.filter fun p => (cellIdx b (ind p b.width)).r = rid
  (rowGroups.filterMap singleOf) ++ (colGroups.filterMap singleOf) ++
    (regGroups.filterMap singleOf)

/-- One level of the `collapse` recursion: commit forced queens, then add
elimination marks; returns the changed flag and the updated board. -/
def collapseStep (b : Board) : Option (Bool × Board) :=
  match getInvalidPlacements ((commitsOf b).foldl addQueenAtPosition b) with
  | none => none
  | some inv =>
    if inv = [] then
      some (!(commitsOf b).isEmpty, (commitsOf b).foldl addQueenAtPosition b)
    else
      some (true, markInvalidPositions
        ((commitsOf b).foldl addQueenAtPosition b) inv)

/-- Fuel-indexed `collapse` recursion (each changed pass adds a queen or a
mark, so `2 · |cells| + 1` fuel always reaches the fixpoint). -/
def collapseFuel : Nat → Board → Option Board
  | 0, b => some b
  | n + 1, b =>
    match collapseStep b with
    | none => none
    | some (false, b') => some b'
    | some (true, b') => collapseFuel n b'

/-- `collapse(board)` — recursively commit forced queens and add
elimination marks, to a fixpoint. -/
def collapse (b : Board) : Option Board :=
  collapseFuel (2 * b.cells.length + 1) b

/-- `hashState(state)` — the canonical serialization
``cells.map(c => `${r}_${q}_${m}`).join('|')``; the encoding of a cell
triple into that string is injective, so the hash is modelled by the triple
list itself. -/
def hashState (b : Board) : List (Nat × Bool × Bool) :=
  b.cells.map fun c => (c.r, c.q, c.m)

/-- `heuristic(board, move)` — inverse valid-placement count plus inverse
size of the move's region. `regionSizes` is positionally indexed by region
id, exactly as in the source (for the boards considered, region ids are
contiguous from 0, so the positional index is the region id). -/
def heuristic (b : Board) (move : Pos) : Q :=
  let s1 := Q.div 100 (Q.ofNat (max (getValidPlacements b).length 1))
  let regionSizes := (regionValues b).map (fun g => g.length)
  let rid := (cellIdx b (ind move b.width)).r
  let s2 := Q.div 100 (Q.ofNat (regionSizes.getD rid 0))
  Q.add s1 s2

/-- An adjacent-vertex record `{ move, state, h }`. -/
structure Adj where
  move : Pos
  state : Board
  h : Q
deriving DecidableEq, Repr

/-- The mapped candidate list of one expansion step. -/
def adjacents (v : Board) : List Adj :=
  (getValidPlacements v).map fun p =>
    let st := addQueenAtPosition v p
    ⟨p, st, heuristic st p⟩

/-- Candidates surviving the visited filter (checked on the
pre-propagation state). -/
def surviving (v : Board) (visited : List (List (Nat × Bool × Bool))) :
    List Adj :=
  (adjacents v).filter fun a => !visited.contains (hashState a.state)

/-- Survivors sorted by score descending (`sort((a, b) => b.h - a.h)`,
stable), the push order of the source. -/
def sortedSurviving (v : Board) (visited : List (List (Nat × Bool × Bool))) :
    List Adj :=
  sortBy (fun a b => Q.leB b.h a.h) (surviving v visited)

/-- The push/cache phase of one expansion step: for each candidate in
order, collapse it; skip it entirely when its own move position is marked
in the collapsed board; otherwise push the collapsed board and cache the
collapsed board's hash. Also returns the pushed `(candidate, collapsed)`
pairs, in processing order. -/
def processPush : List Adj → List Board → List (List (Nat × Bool × Bool)) →
    Option (List Board × List (List (Nat × Bool × Bool)) × List (Adj × Board))
  | [], stack, visited => some (stack, visited, [])
  | a :: rest, stack, visited =>
    match collapse a.state with
    | none => none
    | some collapsed =>
      if positionIsMarked collapsed a.move then processPush rest stack visited
      else
        match processPush rest (collapsed :: stack)
            (visited ++ [hashState collapsed]) with
        | none => none
        | some (st, vi, pairs) => some (st, vi, (a, collapsed) :: pairs)

/-- The observable outcome of one Queens `solve` call: the popped states in
order and the boolean result, or a crash escaping from `collapse`. -/
inductive SolveOutcome where
  | ok (res : Bool) (popped : List Board)
  | crash (popped : List Board)
deriving DecidableEq, Repr

/-- The `solve` search loop (stack top at the head). -/
def solveLoop : Nat → List Board → List (List (Nat × Bool × Bool)) →
    List Board → SolveOutcome
  | 0, _, _, acc => SolveOutcome.ok false acc.reverse
  | _ + 1, [], _, acc => SolveOutcome.ok false acc.reverse
  | fuel + 1, v :: rest, visited, acc =>
    if checkWin v then SolveOutcome.ok true (v :: acc).reverse
    else
      match processPush (sortedSurviving v visited) rest visited with
      | none => SolveOutcome.crash (v :: acc).reverse
      | some (stack', visited', _) => solveLoop fuel stack' visited' (v :: acc)

/-- `solve(board)` with an explicit iteration cap
(`MAX_SOLVER_ITERATIONS` in the source). -/
def solve (b : Board) (cap : Nat) : SolveOutcome :=
  solveLoop cap [b] [hashState b] []

/-- `MAX_SOLVER_ITERATIONS`. -/
def MAX_SOLVER_ITERATIONS : Nat := 100000

end Queens

namespace P0

/-! ## The earlier Queens solver variant, from `src/unnamed/part_000`

Cells carry only a region id and a queen flag (no pruning marks), and
`collapse` is a **single pass** over the region groups, without the
fixpoint recursion of `src/queens.js`. -/

/-- A cell `{ r, q }`. -/
structure Cell where
  r : Nat
  q : Bool
deriving DecidableEq, Repr

/-- A board `{ width, height, cells }`. -/
structure Board where
  width : Nat
  height : Nat
  cells : List Cell
deriving DecidableEq, Repr

/-- `board.cells[i]`. -/
def cellIdx (b : Board) (i : Nat) : Cell := b.cells.getD i ⟨0, false⟩

/-- `countQueens(cells)`. -/
def countQueens (cells : List Cell) : Nat :=
  (cells.filter (fun c => c.q)).length

/-- `getRow(board, y)`. -/
def getRow (b : Board) (y : Nat) : List Cell :=
  (range b.width).map fun x => cellIdx b (ind ⟨x, y⟩ b.width)

/-- `getColumn(board, x)`. -/
def getColumn (b : Board) (x : Nat) : List Cell :=
  (range b.height).map fun y => cellIdx b (ind ⟨x, y⟩ b.width)

/-- `groupByRegion(board)[rid]`. -/
def regionCells (b : Board) (rid : Nat) : List Cell :=
  b.cells.filter (fun c => c.r = rid)

/-- `getQueenArea(board, q)`. -/
def getQueenArea (b : Board) (qi : Nat) : List Cell :=
  (Queens.moore (posOf qi b.width) b.width b.height).map fun p =>
    cellIdx b (ind p b.width)

/-- `addQueenAtPosition(board, p)`. -/
def addQueenAtPosition (b : Board) (p : Pos) : Board :=
  let i := ind p b.width
  let c := cellIdx b i
  { b with cells := b.cells.set i { c with q := true } }

/-- `getValidPlacements(board)` — as in `src/queens.js`. -/
def getValidPlacements (b : Board) : List Pos :=
  ((range (b.width * b.height)).filter fun i =>
    let p := posOf i b.width
    (!(cellIdx b i).q) &&
    (countQueens (getRow b p.y) = 0) &&
    (countQueens (getColumn b p.x) = 0) &&
    (countQueens (regionCells b (cellIdx b i).r) = 0) &&
    (countQueens (getQueenArea b i) = 0)).map fun i => posOf i b.width

/-- `collapse(board)` — a **single** pass committing each region with
exactly one valid placement; `part_000` has no fixpoint recursion and no
elimination marks. -/
def collapse (b : Board) : Board :=
  let vp := getValidPlacements b
  let regGroups := (ascKeys (vp.map fun p => (cellIdx b (ind p b.width)).r)).map
    fun rid => vp.filter fun p => (cellIdx b (ind p b.width)).r = rid
  (regGroups.filterMap Queens.singleOf).foldl addQueenAtPosition b

end P0

/-! ## Concrete boards used by the counterexamples and witnesses -/

namespace Tango

/-- An empty 2×2 balance board with no constraints. -/
def twoByTwoEmpty : Board := ⟨2, 2, [none, none, none, none], [], []⟩

/-- An empty 2×2 balance board carrying one `equals` constraint between
`(0,0)` and `(1,0)` (unsatisfiable together with row balance). -/
def twoByTwoConstrained : Board :=
  ⟨2, 2, [none, none, none, none], [], [⟨CType.equals, ⟨0, 0⟩, ⟨1, 0⟩⟩]⟩

/-- A solved 2×2 balance board (no constraints): `checkWin` holds. -/
def twoByTwoSolved : Board :=
  ⟨2, 2, [some Val.s, some Val.m, some Val.m, some Val.s], [], []⟩

/-- A 6×6 board whose row 0 holds 2 suns and 1 moon (3 filled cells, 3
empty), all other cells empty, no constraints — the shape of the spec's
balance-propagation example. -/
def rowTwoAOneB : Board :=
  ⟨6, 6, [some Val.s, some Val.s, some Val.m, none, none, none] ++
    List.replicate 30 none, [], []⟩

/-- A 6×6 board whose row 0 holds 3 suns (the row's half-count cap) among 3
filled cells, 3 empty, all other cells empty, no constraints. -/
def rowCapA : Board :=
  ⟨6, 6, [some Val.s, some Val.s, none, some Val.s, none, none] ++
    List.replicate 30 none, [], []⟩

/-- `rowCapA` after propagation: the three empty row-0 cells forced to
moons, the rest untouched. -/
def rowCapAFilled : Board :=
  ⟨6, 6, [some Val.s, some Val.s, some Val.m, some Val.s, some Val.m,
    some Val.m] ++ List.replicate 30 none, [], []⟩

/-- A 2×1 board violating its `equals` constraint with two committed,
differing values. -/
def equalsViolated : Board :=
  ⟨2, 1, [some Val.s, some Val.m], [], [⟨CType.equals, ⟨0, 0⟩, ⟨1, 0⟩⟩]⟩

/-- The sorted surviving candidates of `twoByTwoEmpty`'s first expansion
(visited holding only the start hash, as at `solve`'s first iteration). -/
def stepSorted : List Adj :=
  sortedSurviving twoByTwoEmpty [hashState twoByTwoEmpty]

/-- The states pushed by `twoByTwoEmpty`'s first expansion, in push order:
the collapsed forms of the sorted surviving candidates. -/
def stepPushed : List Board := stepSorted.map fun a => collapse a.state

/-- The visited list after `twoByTwoEmpty`'s first expansion: the start
hash followed by the *pre-propagation* candidate hashes. -/
def stepVisitedAfter : List (List Char) :=
  [hashState twoByTwoEmpty] ++ stepSorted.map fun a => hashState a.state

/-- The fully collapsed board pushed first in `twoByTwoEmpty`'s first
expansion. -/
def stepFirstPushed : Board :=
  ⟨2, 2, [some Val.m, some Val.s, some Val.s, some Val.m], [], []⟩

end Tango

namespace Queens

/-- An empty 3×3 exclusivity board with regions
`0` = `{(0,0)}`, `1` = `{(1,0), (2,1)}`, `2` = the six remaining cells. -/
def threeByThree : Board :=
  ⟨3, 3, [0, 1, 2, 2, 2, 1, 2, 2, 2].map fun r => ⟨r, false, false⟩⟩

/-- An empty 4×4 exclusivity board with regions, by row:
`1 1 1 1 / 0 0 2 1 / 2 2 3 3 / 2 2 3 3`. After placing a queen at `(2,1)`
(region 2), propagation commits queens at `(0,0)` and `(3,3)` and then
marks row 1's non-region-0 remainder — including the queen's own position
`(2,1)` — because the unoccupied region 0 lies entirely in row 1. -/
def fourByFour : Board :=
  ⟨4, 4, [1, 1, 1, 1, 0, 0, 2, 1, 2, 2, 3, 3, 2, 2, 3, 3].map
    fun r => ⟨r, false, false⟩⟩

/-- `threeByThree` after propagation: the single-cell region 0 commits
`(0,0)`, elimination marks row 2's complement, and the forced placements
`(2,1)` and `(1,2)` follow. -/
def threeByThreeCollapsed : Board :=
  ⟨3, 3, [⟨0, true, false⟩, ⟨1, false, false⟩, ⟨2, false, true⟩,
    ⟨2, false, true⟩, ⟨2, false, true⟩, ⟨1, true, false⟩,
    ⟨2, false, false⟩, ⟨2, true, false⟩, ⟨2, false, false⟩]⟩

/-- The candidate record for the move `(2,1)` on `fourByFour`. -/
def demoAdj : Adj :=
  ⟨⟨2, 1⟩, addQueenAtPosition fourByFour ⟨2, 1⟩,
   heuristic (addQueenAtPosition fourByFour ⟨2, 1⟩) ⟨2, 1⟩⟩

/-- The sorted surviving candidates of `fourByFour`'s first expansion. -/
def demoCands : List Adj := sortedSurviving fourByFour [hashState fourByFour]

/-- The push/cache phase of `fourByFour`'s first expansion. -/
def demoRun :
    Option (List Board × List (List (Nat × Bool × Bool)) ×
      List (Adj × Board)) :=
  processPush demoCands [] [hashState fourByFour]

/-- The new stack of `fourByFour`'s first expansion. -/
def demoStack : List Board :=
  match demoRun with
  | some (st, _, _) => st
  | none => []

/-- The visited list after `fourByFour`'s first expansion. -/
def demoVisited : List (List (Nat × Bool × Bool)) :=
  match demoRun with
  | some (_, vi, _) => vi
  | none => []

/-- The pushed `(candidate, collapsed)` pairs of `fourByFour`'s first
expansion. -/
def demoPairs : List (Adj × Board) :=
  match demoRun with
  | some (_, _, pairs) => pairs
  | none => []

/-- The collapsed form of `demoAdj.state` (the queen at `(2,1)` plus the
forced queens at `(0,0)` and `(3,3)` and the elimination marks at `(2,1)`
and `(3,1)`). -/
def demoCollapsed : Board :=
  match collapse demoAdj.state with
  | some c => c
  | none => demoAdj.state

/-- The push/cache phase of `threeByThree`'s first expansion (stack and
visited as at the first iteration of `solve`). -/
def orderRun :
    Option (List Board × List (List (Nat × Bool × Bool)) ×
      List (Adj × Board)) :=
  processPush (sortedSurviving threeByThree [hashState threeByThree]) []
    [hashState threeByThree]

/-- The new stack of `threeByThree`'s first expansion. -/
def orderStack : List Board :=
  match orderRun with
  | some (st, _, _) => st
  | none => []

/-- The pushed `(candidate, collapsed)` pairs of `threeByThree`'s first
expansion, in push order. -/
def orderPairs : List (Adj × Board) :=
  match orderRun with
  | some (_, _, pairs) => pairs
  | none => []

/-- The visited list after `threeByThree`'s first expansion. -/
def orderVisited : List (List (Nat × Bool × Bool)) :=
  match orderRun with
  | some (_, vi, _) => vi
  | none => []

end Queens

namespace P0

/-- The 3×3 region layout of `Queens.threeByThree`, as a `part_000` board:
region `0` is a single cell, so one `collapse` pass commits `(0,0)`; only
then does region `1` shrink to the single placement `(2,1)`, which a second
`collapse` call commits. -/
def threeByThree : Board :=
  ⟨3, 3, [0, 1, 2, 2, 2, 1, 2, 2, 2].map fun r => ⟨r, false⟩⟩

end P0

/-! # Helper lemmas

Generic lemmas about the stable sort and the exact score arithmetic. -/

theorem mem_ordIns {α : Type} (le : α → α → Bool) (a x : α) (l : List α) :
    x ∈ ordIns le a l ↔ x = a ∨ x ∈ l := by
  induction l with
  | nil => simp [ordIns]
  | cons b t ih =>
    simp only [ordIns]
    by_cases h : le a b = true
    · simp [h]
    · rw [if_neg (by simp [h])]
      simp only [List.mem_cons, ih]
      tauto

theorem perm_ordIns {α : Type} (le : α → α → Bool) (a : α) (l : List α) :
    List.Perm (ordIns le a l) (a :: l) := by
  induction l with
  | nil => simp [ordIns]
  | cons b t ih =>
    simp only [ordIns]
    by_cases h : le a b = true
    · simp [h]
    · rw [if_neg (by simp [h])]
      have h1 : List.Perm (b :: ordIns le a t) (b :: a :: t) :=
        List.Perm.cons b ih
      have h2 : List.Perm (b :: a :: t) (a :: b :: t) := List.Perm.swap a b t
      exact h1.trans h2

theorem perm_sortBy {α : Type} (le : α → α → Bool) (l : List α) :
    List.Perm (sortBy le l) l := by
  induction l with
  | nil => simp [sortBy]
  | cons a t ih =>
    exact (perm_ordIns le a (sortBy le t)).trans (List.Perm.cons a ih)

theorem mem_sortBy {α : Type} (le : α → α → Bool) (x : α) (l : List α) :
    x ∈ sortBy le l ↔ x ∈ l :=
  (perm_sortBy le l).mem_iff

/-- The output of `ordIns` is a `≤`-chain when the input is, for a total
transitive boolean relation. -/
theorem chain_ordIns {α : Type} (le : α → α → Bool)
    (htot : ∀ a b, le a b = true ∨ le b a = true)
    (a : α) (l : List α) (hl : List.Chain' (fun x y => le x y = true) l) :
    List.Chain' (fun x y => le x y = true) (ordIns le a l) := by
  induction l with
  | nil => simp [ordIns]
  | cons b t ih =>
    simp only [ordIns]
    by_cases h : le a b = true
    · simp only [h, if_pos]
      exact List.Chain'.cons h hl
    · simp only [h]
      have hba : le b a = true := (htot a b).resolve_left h
      have ht : List.Chain' (fun x y => le x y = true) t := hl.tail
      have hmain := ih ht
      cases t with
      | nil => simpa [ordIns] using hba
      | cons c u =>
        simp only [ordIns] at hmain ⊢
        by_cases hac : le a c = true
        · simp only [hac, if_pos] at hmain ⊢
          exact List.Chain'.cons hba hmain
        · simp only [hac] at hmain ⊢
          have hbc : le b c = true := (List.chain'_cons.mp hl).1
          exact List.Chain'.cons hbc hmain

/-- The output of `sortBy` is a chain under `le`, for total `le`. -/
theorem chain_sortBy {α : Type} (le : α → α → Bool)
    (htot : ∀ a b, le a b = true ∨ le b a = true) (l : List α) :
    List.Chain' (fun x y => le x y = true) (sortBy le l) := by
  induction l with
  | nil => simp [sortBy]
  | cons a t ih => exact chain_ordIns le htot a (sortBy le t) ih

/-- In an `le`-chain of elements satisfying `P`, with `le` transitive and
reflexive on `P`, every element is `le` the last one. -/
theorem chain_le_getLast {α : Type} (le : α → α → Bool) (P : α → Prop)
    (htrans : ∀ a b c, P a → P b → P c →
      le a b = true → le b c = true → le a c = true)
    (hrefl : ∀ a, P a → le a a = true) :
    ∀ (l : List α), (∀ x ∈ l, P x) →
      List.Chain' (fun x y => le x y = true) l →
      ∀ (hne : l ≠ []) (x : α), x ∈ l → le x (l.getLast hne) = true := by
  intro l
  induction l with
  | nil => intro _ _ hne; exact absurd rfl hne
  | cons a t ih =>
    intro hP hch hne x hx
    cases t with
    | nil =>
      simp only [List.mem_singleton] at hx
      subst hx
      simpa using hrefl x (hP x (by simp))
    | cons b u =>
      have hab : le a b = true := (List.chain'_cons.mp hch).1
      have hcht : List.Chain' (fun x y => le x y = true) (b :: u) :=
        (List.chain'_cons.mp hch).2
      have hPt : ∀ z ∈ b :: u, P z := fun z hz => hP z (List.mem_cons_of_mem a hz)
      have hlast : (a :: b :: u).getLast hne =
          (b :: u).getLast (by simp) := by
        simp [List.getLast]
      rw [hlast]
      rcases List.mem_cons.mp hx with h | h
      · subst h
        have hb : le b ((b :: u).getLast (by simp)) = true :=
          ih hPt hcht (by simp) b (by simp)
        have hPlast : P ((b :: u).getLast (by simp)) :=
          hPt _ (List.getLast_mem _)
        exact htrans x b _ (hP x hx) (hPt b (by simp)) hPlast hab hb
      · exact ih hPt hcht (by simp) x h

theorem Q.leB_total (a b : Q) : leB a b = true ∨ leB b a = true := by
  unfold Q.leB
  rcases le_total (a.num * b.den) (b.num * a.den) with h | h
  · left; simpa using h
  · right; simpa using h

theorem Q.leB_refl (a : Q) : leB a a = true := by
  unfold Q.leB
  simp

theorem Q.leB_trans {a b c : Q} (ha : 0 < a.den) (hb : 0 < b.den)
    (hc : 0 < c.den) (hab : leB a b = true) (hbc : leB b c = true) :
    leB a c = true := by
  unfold Q.leB at hab hbc ⊢
  simp only [decide_eq_true_eq] at hab hbc ⊢
  have h1 : a.num * b.den * c.den ≤ b.num * a.den * c.den :=
    mul_le_mul_of_nonneg_right hab (le_of_lt hc)
  have h2 : b.num * c.den * a.den ≤ c.num * b.den * a.den :=
    mul_le_mul_of_nonneg_right hbc (le_of_lt ha)
  have h3 : a.num * c.den * b.den ≤ c.num * a.den * b.den := by nlinarith
  exact le_of_mul_le_mul_right (by nlinarith) hb

theorem filter_length_set_le_of_true {α : Type} (p : α → Bool) (x : α)
    (hx : p x = true) :
    ∀ (l : List α) (i : Nat),
      (l.filter p).length ≤ ((l.set i x).filter p).length := by
  intro l
  induction l with
  | nil => intro i; simp
  | cons c t ih =>
    intro i
    cases i with
    | zero =>
      simp only [List.set_cons_zero, List.filter_cons]
      cases hc : p c <;> simp [hx, hc]
    | succ j =>
      simp only [List.set_cons_succ, List.filter_cons]
      cases hc : p c <;> simp [hc, Nat.succ_le_succ, ih j]

theorem filter_length_set_lt_of_true {α : Type} (p : α → Bool) (x : α)
    (hx : p x = true) :
    ∀ (l : List α) (i : Nat) (hi : i < l.length),
      p (l.get ⟨i, hi⟩) = false →
      (l.filter p).length < ((l.set i x).filter p).length := by
  intro l
  induction l with
  | nil => intro i hi; simp at hi
  | cons c t ih =>
    intro i hi hold
    cases i with
    | zero =>
      simp only [List.get] at hold
      simp only [List.set_cons_zero, List.filter_cons, hold, hx]
      simp
    | succ j =>
      simp only [List.get] at hold
      have hj : j < t.length := Nat.lt_of_succ_lt_succ hi
      simp only [List.set_cons_succ, List.filter_cons]
      cases hc : p c
      · simpa using ih j hj hold
      · simpa [Nat.succ_lt_succ_iff] using ih j hj hold

theorem filter_length_set_le_of_false {α : Type} (p : α → Bool) (x : α)
    (hx : p x = false) :
    ∀ (l : List α) (i : Nat),
      ((l.set i x).filter p).length ≤ (l.filter p).length := by
  intro l
  induction l with
  | nil => intro i; simp
  | cons c t ih =>
    intro i
    cases i with
    | zero =>
      simp only [List.set_cons_zero, List.filter_cons]
      cases hc : p c <;> simp [hx, hc, Nat.le_succ_of_le, le_refl]
    | succ j =>
      simp only [List.set_cons_succ, List.filter_cons]
      cases hc : p c <;> simp [hc, Nat.succ_le_succ, ih j]

theorem filter_length_set_lt_of_false {α : Type} (p : α → Bool) (x : α)
    (hx : p x = false) :
    ∀ (l : List α) (i : Nat) (hi : i < l.length),
      p (l.get ⟨i, hi⟩) = true →
      ((l.set i x).filter p).length < (l.filter p).length := by
  intro l
  induction l with
  | nil => intro i hi; simp at hi
  | cons c t ih =>
    intro i hi hold
    cases i with
    | zero =>
      simp only [List.get] at hold
      simp only [List.set_cons_zero, List.filter_cons, hold, hx]
      have := filter_length_set_le_of_false p x hx t 0
      simp [Nat.lt_succ_of_le, le_refl]
    | succ j =>
      simp only [List.get] at hold
      have hj : j < t.length := Nat.lt_of_succ_lt_succ hi
      simp only [List.set_cons_succ, List.filter_cons]
      cases hc : p c
      · simpa using ih j hj hold
      · simpa [Nat.succ_lt_succ_iff] using ih j hj hold

theorem filter_length_set_eq_of_same {α : Type} (p : α → Bool) (x : α) :
    ∀ (l : List α) (i : Nat),
      (∀ hi : i < l.length, p x = p (l.get ⟨i, hi⟩)) →
      ((l.set i x).filter p).length = (l.filter p).length := by
  intro l
  induction l with
  | nil => intro i _; simp
  | cons c t ih =>
    intro i hsame
    cases i with
    | zero =>
      have h0 : p x = p c := hsame (by simp)
      simp only [List.set_cons_zero, List.filter_cons, ← h0]
      cases hc : p x <;> simp
    | succ j =>
      simp only [List.set_cons_succ, List.filter_cons]
      have hj : ∀ hj : j < t.length, p x = p (t.get ⟨j, hj⟩) := by
        intro hj
        exact hsame (Nat.succ_lt_succ hj)
      cases hc : p c <;> simp [ih j hj]

/-- A chain whose elements satisfy `P`, under `le` transitive on `P`, is
pairwise related. -/
theorem pairwise_of_chain {α : Type} (le : α → α → Bool) (P : α → Prop)
    (htrans : ∀ a b c, P a → P b → P c →
      le a b = true → le b c = true → le a c = true) :
    ∀ (l : List α), (∀ x ∈ l, P x) →
      List.Chain' (fun x y => le x y = true) l →
      List.Pairwise (fun x y => le x y = true) l := by
  intro l
  induction l with
  | nil => intro _ _; exact List.Pairwise.nil
  | cons a t ih =>
    intro hP hch
    have hPt : ∀ z ∈ t, P z := fun z hz => hP z (List.mem_cons_of_mem a hz)
    have ht : List.Pairwise (fun x y => le x y = true) t :=
      ih hPt hch.tail
    refine List.pairwise_cons.mpr ⟨?_, ht⟩
    intro b hb
    induction t with
    | nil => cases hb
    | cons c u ihu =>
      have hac : le a c = true := (List.chain'_cons.mp hch).1
      rcases List.mem_cons.mp hb with h | h
      · subst h; exact hac
      · have hcu : List.Pairwise (fun x y => le x y = true) (c :: u) := ht
        have hcb : le c b = true :=
          (List.pairwise_cons.mp hcu).1 b h
        exact htrans a c b (hP a (by simp)) (hP c (by simp))
          (hPt b (List.mem_cons_of_mem c h)) hac hcb

/-- In a pairwise `le`-related list of elements satisfying `P` (with `le`
reflexive on `P`), every element is `le` the last one. -/
theorem pairwise_le_getLast {α : Type} (le : α → α → Bool) (P : α → Prop)
    (hrefl : ∀ a, P a → le a a = true) :
    ∀ (l : List α), (∀ x ∈ l, P x) →
      List.Pairwise (fun x y => le x y = true) l →
      ∀ (hne : l ≠ []) (x : α), x ∈ l → le x (l.getLast hne) = true := by
  intro l
  induction l with
  | nil => intro _ _ hne; exact absurd rfl hne
  | cons a t ih =>
    intro hP hpw hne x hx
    cases t with
    | nil =>
      simp only [List.mem_singleton] at hx
      subst hx
      simpa using hrefl x (hP x (by simp))
    | cons b u =>
      have hPt : ∀ z ∈ b :: u, P z :=
        fun z hz => hP z (List.mem_cons_of_mem a hz)
      have hlast : (a :: b :: u).getLast hne =
          (b :: u).getLast (by simp) := by
        simp [List.getLast]
      rw [hlast]
      rcases List.mem_cons.mp hx with h | h
      · subst h
        exact (List.pairwise_cons.mp hpw).1 _ (List.getLast_mem _)
      · exact ih hPt (List.pairwise_cons.mp hpw).2 (by simp) x h

/-- The candidates of the pushed pairs form a sublist (in order) of the
processed candidate list. -/
theorem queens_processPush_pairs_sublist
    (cands : List Queens.Adj) (stack st : List Queens.Board)
    (visited vi : List (List (Nat × Bool × Bool)))
    (pairs : List (Queens.Adj × Queens.Board))
    (hrun : Queens.processPush cands stack visited = some (st, vi, pairs)) :
    (pairs.map fun pr => pr.1).Sublist cands := by
  induction cands generalizing stack visited st vi pairs with
  | nil =>
    simp only [Queens.processPush] at hrun
    injection hrun with h
    rw [Prod.ext_iff, Prod.ext_iff] at h
    obtain ⟨-, -, h3⟩ := h
    dsimp at h3
    rw [← h3]
    simp
  | cons a rest ih =>
    simp only [Queens.processPush] at hrun
    cases hcol : Queens.collapse a.state with
    | none => rw [hcol] at hrun; simp at hrun
    | some collapsed =>
      rw [hcol] at hrun
      dsimp only at hrun
      by_cases hm : Queens.positionIsMarked collapsed a.move = true
      · rw [if_pos hm] at hrun
        exact (ih stack st visited vi pairs hrun).cons a
      · rw [if_neg hm] at hrun
        cases hrec : Queens.processPush rest (collapsed :: stack)
            (visited ++ [Queens.hashState collapsed]) with
        | none => rw [hrec] at hrun; simp at hrun
        | some res =>
          obtain ⟨st', vi', pairs'⟩ := res
          rw [hrec] at hrun
          dsimp only at hrun
          injection hrun with h
          rw [Prod.ext_iff, Prod.ext_iff] at h
          obtain ⟨-, -, h3⟩ := h
          dsimp at h3
          rw [← h3]
          simpa using (ih (collapsed :: stack) st'
            (visited ++ [Queens.hashState collapsed]) vi' pairs' hrec).cons₂ a

/-- Structure of the Queens push/cache phase: everything pushed onto the
stack and everything cached into the visited set comes from the returned
`pairs` list, and every pair is an unmarked, successfully collapsed
candidate. -/
theorem queens_processPush_spec
    (cands : List Queens.Adj) (stack st : List Queens.Board)
    (visited vi : List (List (Nat × Bool × Bool)))
    (pairs : List (Queens.Adj × Queens.Board))
    (hrun : Queens.processPush cands stack visited = some (st, vi, pairs)) :
    st = (pairs.map fun pr => pr.2).reverse ++ stack ∧
    vi = visited ++ pairs.map (fun pr => Queens.hashState pr.2) ∧
    ∀ pr ∈ pairs, pr.1 ∈ cands ∧ Queens.collapse pr.1.state = some pr.2 ∧
      Queens.positionIsMarked pr.2 pr.1.move = false := by
  induction cands generalizing stack visited st vi pairs with
  | nil =>
    simp only [Queens.processPush] at hrun
    injection hrun with h
    rw [Prod.ext_iff, Prod.ext_iff] at h
    obtain ⟨h1, h2, h3⟩ := h
    dsimp at h1 h2 h3
    subst h1; subst h2; subst h3
    simp
  | cons a rest ih =>
    simp only [Queens.processPush] at hrun
    cases hcol : Queens.collapse a.state with
    | none =>
      rw [hcol] at hrun
      simp at hrun
    | some collapsed =>
      rw [hcol] at hrun
      dsimp only at hrun
      by_cases hm : Queens.positionIsMarked collapsed a.move = true
      · rw [if_pos hm] at hrun
        obtain ⟨h1, h2, h3⟩ := ih stack st visited vi pairs hrun
        exact ⟨h1, h2, fun pr hpr =>
          ⟨List.mem_cons_of_mem a (h3 pr hpr).1, (h3 pr hpr).2⟩⟩
      · rw [if_neg hm] at hrun
        cases hrec : Queens.processPush rest (collapsed :: stack)
            (visited ++ [Queens.hashState collapsed]) with
        | none =>
          rw [hrec] at hrun
          simp at hrun
        | some res =>
          obtain ⟨st', vi', pairs'⟩ := res
          rw [hrec] at hrun
          dsimp only at hrun
          injection hrun with h
          rw [Prod.ext_iff, Prod.ext_iff] at h
          obtain ⟨h1, h2, h3⟩ := h
          dsimp at h1 h2 h3
          subst h1; subst h2; subst h3
          obtain ⟨h1, h2, h3⟩ := ih (collapsed :: stack) st'
            (visited ++ [Queens.hashState collapsed]) vi' pairs' hrec
          refine ⟨?_, ?_, ?_⟩
          · rw [h1]; simp
          · rw [h2]; simp
          · intro pr hpr
            rcases List.mem_cons.mp hpr with h | h
            · subst h
              refine ⟨List.mem_cons_self a rest, hcol, ?_⟩
              simpa using hm
            · exact ⟨List.mem_cons_of_mem a (h3 pr h).1, (h3 pr h).2⟩

theorem ind_posOf (i w : Nat) : ind (posOf i w) w = i := by
  unfold ind posOf
  simp only
  rw [Nat.mul_comm]
  exact Nat.div_add_mod i w

/-- Every forced move of a Tango `collapse` pass targets an in-bounds,
still-empty cell. -/
theorem tango_forced_mem (b : Tango.Board) (pv : Pos × Tango.Val)
    (h : pv ∈ Tango.forcedMoves b) :
    ind pv.1 b.width < b.cells.length ∧
    Tango.cellIdx b (ind pv.1 b.width) = none := by
  unfold Tango.forcedMoves at h
  rcases List.mem_filterMap.mp h with ⟨i, hi, hf⟩
  have hi' : i < b.cells.length := List.mem_range.mp hi
  by_cases hc : Tango.cellIdx b i = none
  · rw [if_neg (by simpa using hc)] at hf
    rcases hfil : (Tango.getValidMoves b).filter
        (fun mv => mv.p.x = (posOf i b.width).x ∧
          mv.p.y = (posOf i b.width).y) with _ | ⟨mv, rest⟩
    · rw [hfil] at hf; simp at hf
    · cases rest with
      | nil =>
        rw [hfil] at hf
        simp only at hf
        injection hf with hf
        have hp1 : pv.1 = posOf i b.width := by rw [← hf]
        rw [hp1, ind_posOf]
        exact ⟨hi', hc⟩
      | cons m2 rest2 => rw [hfil] at hf; simp at hf
  · rw [if_pos (by simpa using hc)] at hf
    simp at hf

/-- Committing a (possibly out-of-range) value never increases the number
of empty cells, and strictly decreases it on an in-bounds empty cell. -/
theorem tango_countEmpties_set_le (l : List Tango.TCell) (i : Nat)
    (w : Tango.Val) :
    Tango.countEmpties (l.set i (some w)) ≤ Tango.countEmpties l := by
  unfold Tango.countEmpties Tango.countEntries
  exact filter_length_set_le_of_false _ (some w) (by simp) l i

theorem tango_countEmpties_set_lt (l : List Tango.TCell) (i : Nat)
    (w : Tango.Val) (hi : i < l.length) (hn : l.getD i none = none) :
    Tango.countEmpties (l.set i (some w)) < Tango.countEmpties l := by
  unfold Tango.countEmpties Tango.countEntries
  refine filter_length_set_lt_of_false _ (some w) (by simp) l i hi ?_
  rw [List.getD_eq_getElem?_getD, List.getElem?_eq_getElem hi] at hn
  simp only [Option.getD_some] at hn
  simp [List.get_eq_getElem, hn]

/-- Folding commits over a board never increases the number of empty
cells. -/
theorem tango_fold_empties_le (fms : List (Pos × Tango.Val)) :
    ∀ acc : Tango.Board,
      Tango.countEmpties ((fms.foldl (fun acc pv =>
        Tango.addValueAtPosition acc pv.1 (some pv.2)) acc).cells) ≤
      Tango.countEmpties acc.cells := by
  induction fms with
  | nil => intro acc; simp
  | cons pv rest ih =>
    intro acc
    refine le_trans (ih _) ?_
    exact tango_countEmpties_set_le acc.cells (ind pv.1 acc.width) pv.2

/-- A changed Tango `collapse` pass strictly decreases the number of empty
cells. -/
theorem tango_collapsePass_empties_lt (b : Tango.Board)
    (h : Tango.forcedMoves b ≠ []) :
    Tango.countEmpties (Tango.collapsePass b).cells <
      Tango.countEmpties b.cells := by
  unfold Tango.collapsePass
  rcases hf : Tango.forcedMoves b with _ | ⟨pv, rest⟩
  · exact absurd hf h
  · have hmem : pv ∈ Tango.forcedMoves b := by rw [hf]; simp
    obtain ⟨hi, hn⟩ := tango_forced_mem b pv hmem
    simp only [List.foldl_cons]
    refine lt_of_le_of_lt (tango_fold_empties_le rest _) ?_
    exact tango_countEmpties_set_lt b.cells (ind pv.1 b.width) pv.2 hi hn

/-- With fuel exceeding the number of empty cells, the Tango `collapse`
recursion reaches a fixpoint: a board with no forced moves. -/
theorem tango_collapseFuel_fixed :
    ∀ (n : Nat) (b : Tango.Board), Tango.countEmpties b.cells < n →
      Tango.forcedMoves (Tango.collapseFuel n b) = [] := by
  intro n
  induction n with
  | zero => intro b hb; exact absurd hb (by simp)
  | succ m ih =>
    intro b hb
    by_cases hf : Tango.forcedMoves b = []
    · simpa [Tango.collapseFuel, hf] using hf
    · have hstep : Tango.collapseFuel (m + 1) b =
          Tango.collapseFuel m (Tango.collapsePass b) := by
        simp [Tango.collapseFuel, hf]
      rw [hstep]
      refine ih _ (lt_of_lt_of_le (tango_collapsePass_empties_lt b hf) ?_)
      exact Nat.lt_succ_iff.mp hb

/-- The result of a Tango `collapse` has no forced moves left. -/
theorem tango_collapse_fixed (b : Tango.Board) :
    Tango.forcedMoves (Tango.collapse b) = [] :=
  tango_collapseFuel_fixed _ b (Nat.lt_succ_self _)

/-- Membership in `getValidPlacements`: an in-range index of a queenless
cell. -/
theorem queens_vp_mem (b : Queens.Board) (p : Pos)
    (h : p ∈ Queens.getValidPlacements b) :
    ∃ i, i < b.width * b.height ∧ p = posOf i b.width ∧
      (Queens.cellIdx b i).q = false := by
  unfold Queens.getValidPlacements at h
  rcases List.mem_map.mp h with ⟨i, hi, hp⟩
  rcases List.mem_filter.mp hi with ⟨hir, hcond⟩
  refine ⟨i, List.mem_range.mp hir, hp.symm, ?_⟩
  simp only [Bool.and_eq_true, Bool.not_eq_true'] at hcond
  exact hcond.1.1.1.1

/-- `singleOf` returns a member of its argument. -/
theorem queens_singleOf_mem (g : List Pos) (p : Pos)
    (h : Queens.singleOf g = some p) : p ∈ g := by
  rcases g with _ | ⟨p0, _ | ⟨p1, rest⟩⟩
  · simp [Queens.singleOf] at h
  · unfold Queens.singleOf at h
    injection h with h
    simp [h]
  · simp [Queens.singleOf] at h

/-- Every committed position of a `collapse` pass is a valid placement of
the input board. -/
theorem queens_commits_mem (b : Queens.Board) (p : Pos)
    (h : p ∈ Queens.commitsOf b) : p ∈ Queens.getValidPlacements b := by
  unfold Queens.commitsOf at h
  have main : ∀ (kl : List Nat) (f : Pos → Nat),
      p ∈ (kl.map fun k => (Queens.getValidPlacements b).filter
        fun q => f q = k).filterMap Queens.singleOf →
      p ∈ Queens.getValidPlacements b := by
    intro kl f hp
    rcases List.mem_filterMap.mp hp with ⟨g, hg, hsingle⟩
    rcases List.mem_map.mp hg with ⟨k, _, hgeq⟩
    have := queens_singleOf_mem g p hsingle
    rw [← hgeq] at this
    exact (List.mem_filter.mp this).1
  rcases List.mem_append.mp h with h' | h'
  · rcases List.mem_append.mp h' with h'' | h''
    · exact main _ (fun q => q.y) h''
    · exact main _ (fun q => q.x) h''
  · exact main _ (fun q => (Queens.cellIdx b (ind q b.width)).r) h'

/-- Elementary facts about `addQueenAtPosition`: dimensions and cell count
are preserved, the queen count does not decrease, and the mark count is
unchanged. -/
theorem queens_addQueen_facts (b : Queens.Board) (p : Pos) :
    (Queens.addQueenAtPosition b p).width = b.width ∧
    (Queens.addQueenAtPosition b p).height = b.height ∧
    (Queens.addQueenAtPosition b p).cells.length = b.cells.length ∧
    (b.cells.filter (fun c => c.q)).length ≤
      ((Queens.addQueenAtPosition b p).cells.filter (fun c => c.q)).length ∧
    ((Queens.addQueenAtPosition b p).cells.filter (fun c => c.m)).length =
      (b.cells.filter (fun c => c.m)).length := by
  refine ⟨rfl, rfl, by simp [Queens.addQueenAtPosition], ?_, ?_⟩
  · exact filter_length_set_le_of_true _ _ rfl _ _
  · refine filter_length_set_eq_of_same _ _ _ _ ?_
    intro hi
    unfold Queens.cellIdx
    rw [List.getD_eq_getElem?_getD, List.getElem?_eq_getElem hi]
    simp [List.get_eq_getElem]

/-- Adding a queen on an in-bounds queenless cell strictly increases the
queen count. -/
theorem queens_addQueen_qcount_lt (b : Queens.Board) (p : Pos)
    (hi : ind p b.width < b.cells.length)
    (hq : (Queens.cellIdx b (ind p b.width)).q = false) :
    (b.cells.filter (fun c => c.q)).length <
      ((Queens.addQueenAtPosition b p).cells.filter (fun c => c.q)).length := by
  refine filter_length_set_lt_of_true _ _ rfl _ _ hi ?_
  unfold Queens.cellIdx at hq
  rw [List.getD_eq_getElem?_getD, List.getElem?_eq_getElem hi] at hq
  simpa [List.get_eq_getElem] using hq

/-- Folding queen commitments preserves dimensions and cell count, never
decreases the queen count, and leaves the mark count unchanged. -/
theorem queens_fold_addQueen_facts (commits : List Pos) :
    ∀ acc : Queens.Board,
      (commits.foldl Queens.addQueenAtPosition acc).width = acc.width ∧
      (commits.foldl Queens.addQueenAtPosition acc).height = acc.height ∧
      (commits.foldl Queens.addQueenAtPosition acc).cells.length =
        acc.cells.length ∧
      (acc.cells.filter (fun c => c.q)).length ≤
        ((commits.foldl Queens.addQueenAtPosition acc).cells.filter
          (fun c => c.q)).length ∧
      ((commits.foldl Queens.addQueenAtPosition acc).cells.filter
        (fun c => c.m)).length =
        (acc.cells.filter (fun c => c.m)).length := by
  induction commits with
  | nil => intro acc; exact ⟨rfl, rfl, rfl, le_refl _, rfl⟩
  | cons p rest ih =>
    intro acc
    simp only [List.foldl_cons]
    obtain ⟨w1, h1, l1, q1, m1⟩ := ih (Queens.addQueenAtPosition acc p)
    obtain ⟨w2, h2, l2, q2, m2⟩ := queens_addQueen_facts acc p
    exact ⟨w1.trans w2, h1.trans h2, l1.trans l2, le_trans q2 q1,
      m1.trans m2⟩

/-- Elementary facts about a single invalid-mark update. -/
theorem queens_mark_facts (b : Queens.Board) (p : Pos) :
    ((Queens.markInvalidPositions b [p]).width = b.width ∧
     (Queens.markInvalidPositions b [p]).height = b.height ∧
     (Queens.markInvalidPositions b [p]).cells.length = b.cells.length ∧
     ((Queens.markInvalidPositions b [p]).cells.filter
       (fun c => c.q)).length = (b.cells.filter (fun c => c.q)).length ∧
     (b.cells.filter (fun c => c.m)).length ≤
       ((Queens.markInvalidPositions b [p]).cells.filter
         (fun c => c.m)).length) := by
  refine ⟨rfl, rfl, by simp [Queens.markInvalidPositions], ?_, ?_⟩
  · refine filter_length_set_eq_of_same _ _ _ _ ?_
    intro hi
    unfold Queens.cellIdx
    rw [List.getD_eq_getElem?_getD, List.getElem?_eq_getElem hi]
    simp [List.get_eq_getElem]
  · exact filter_length_set_le_of_true _ _ rfl _ _

/-- Folding invalid marks preserves dimensions, cell count and queen
count, and never decreases the mark count. -/
theorem queens_fold_mark_facts (pp : List Pos) :
    ∀ acc : Queens.Board,
      (Queens.markInvalidPositions acc pp).width = acc.width ∧
      (Queens.markInvalidPositions acc pp).height = acc.height ∧
      (Queens.markInvalidPositions acc pp).cells.length =
        acc.cells.length ∧
      ((Queens.markInvalidPositions acc pp).cells.filter
        (fun c => c.q)).length =
        (acc.cells.filter (fun c => c.q)).length ∧
      (acc.cells.filter (fun c => c.m)).length ≤
        ((Queens.markInvalidPositions acc pp).cells.filter
          (fun c => c.m)).length := by
  induction pp with
  | nil => intro acc; exact ⟨rfl, rfl, rfl, rfl, le_refl _⟩
  | cons p rest ih =>
    intro acc
    have hsplit : Queens.markInvalidPositions acc (p :: rest) =
        Queens.markInvalidPositions (Queens.markInvalidPositions acc [p])
          rest := by
      simp [Queens.markInvalidPositions]
    rw [hsplit]
    obtain ⟨w1, h1, l1, q1, m1⟩ := ih (Queens.markInvalidPositions acc [p])
    obtain ⟨w2, h2, l2, q2, m2⟩ := queens_mark_facts acc p
    exact ⟨w1.trans w2, h1.trans h2, l1.trans l2, q1.trans q2,
      le_trans m2 m1⟩

/-- Marking an in-bounds unmarked position strictly increases the mark
count. -/
theorem queens_mark_mcount_lt (b : Queens.Board) (p : Pos)
    (hi : ind p b.width < b.cells.length)
    (hm : (Queens.cellIdx b (ind p b.width)).m = false) :
    (b.cells.filter (fun c => c.m)).length <
      ((Queens.markInvalidPositions b [p]).cells.filter
        (fun c => c.m)).length := by
  refine filter_length_set_lt_of_true _ _ rfl _ _ hi ?_
  unfold Queens.cellIdx at hm
  rw [List.getD_eq_getElem?_getD, List.getElem?_eq_getElem hi] at hm
  simpa [List.get_eq_getElem] using hm

/-- Membership in `withPos`. -/
theorem queens_withPos_mem (b : Queens.Board) (c : Pos × Queens.Cell)
    (h : c ∈ Queens.withPos b) :
    ∃ i, i < b.cells.length ∧ c.1 = posOf i b.width := by
  unfold Queens.withPos at h
  rcases List.mem_map.mp h with ⟨i, hi, hc⟩
  exact ⟨i, List.mem_range.mp hi, by rw [← hc]⟩

/-- Positions produced by rule 1 of `getInvalidPlacements` are in
bounds. -/
theorem queens_invalidOfRegion_inbounds (b : Queens.Board)
    (cs : List (Pos × Queens.Cell)) (l : List Pos)
    (hwf : b.cells.length = b.width * b.height)
    (hcs : ∀ c ∈ cs, ∃ i, i < b.cells.length ∧ c.1 = posOf i b.width)
    (h : Queens.invalidOfRegion b cs = some l) :
    ∀ p ∈ l, ind p b.width < b.cells.length := by
  cases cs with
  | nil => simp [Queens.invalidOfRegion] at h
  | cons c0 rest =>
    obtain ⟨i0, hi0, hc0⟩ := hcs c0 (by simp)
    have hw : 0 < b.width := by
      rcases Nat.eq_zero_or_pos b.width with hz | hp
      · rw [hwf, hz] at hi0; simp at hi0
      · exact hp
    simp only [Queens.invalidOfRegion] at h
    injection h with h
    intro p hp
    rw [← h] at hp
    rcases List.mem_append.mp hp with hcol | hrow
    · rcases hcond : (c0 :: rest).all fun c => c.1.x = c0.1.x with _ | _
      · rw [hcond] at hcol; simp at hcol
      · rw [hcond] at hcol
        simp only [if_pos rfl] at hcol
        rcases List.mem_filter.mp hcol with ⟨hmem, -⟩
        rcases List.mem_map.mp hmem with ⟨y, hy, hpy⟩
        have hylt : y < b.height := List.mem_range.mp hy
        have hx : p.x = c0.1.x ∧ p.y = y := by
          constructor <;> rw [← hpy]
        have hxw : c0.1.x < b.width := by
          rw [hc0]
          exact Nat.mod_lt i0 hw
        unfold ind
        rw [hx.1, hx.2]
        calc y * b.width + c0.1.x < (y + 1) * b.width := by
              rw [Nat.succ_mul]; omega
          _ ≤ b.height * b.width := Nat.mul_le_mul_right _ hylt
          _ = b.cells.length := by rw [hwf, Nat.mul_comm]
    · rcases hcond : (c0 :: rest).all fun c => c.1.y = c0.1.y with _ | _
      · rw [hcond] at hrow; simp at hrow
      · rw [hcond] at hrow
        simp only [if_pos rfl] at hrow
        rcases List.mem_filter.mp hrow with ⟨hmem, -⟩
        rcases List.mem_map.mp hmem with ⟨x, hx, hpx⟩
        have hxlt : x < b.width := List.mem_range.mp hx
        have hxy : p.x = x ∧ p.y = c0.1.y := by
          constructor <;> rw [← hpx]
        have hyh : c0.1.y < b.height := by
          rw [hc0]
          show i0 / b.width < b.height
          rw [Nat.div_lt_iff_lt_mul hw]
          rw [hwf, Nat.mul_comm] at hi0
          exact hi0
        unfold ind
        rw [hxy.1, hxy.2]
        calc c0.1.y * b.width + x < (c0.1.y + 1) * b.width := by
              rw [Nat.succ_mul]; omega
          _ ≤ b.height * b.width := Nat.mul_le_mul_right _ hyh
          _ = b.cells.length := by rw [hwf, Nat.mul_comm]

/-- Decomposition of `invRegionsGo` membership. -/
theorem queens_invRegionsGo_mem (b : Queens.Board) :
    ∀ (gs : List (List (Pos × Queens.Cell))) (l : List Pos),
      Queens.invRegionsGo b gs = some l →
      ∀ p ∈ l, ∃ g lg, g ∈ gs ∧ Queens.invalidOfRegion b g = some lg ∧
        p ∈ lg := by
  intro gs
  induction gs with
  | nil =>
    intro l h p hp
    simp only [Queens.invRegionsGo] at h
    injection h with h
    rw [← h] at hp
    cases hp
  | cons g rest ih =>
    intro l h p hp
    simp only [Queens.invRegionsGo] at h
    cases h1 : Queens.invalidOfRegion b g with
    | none => rw [h1] at h; simp at h
    | some lg =>
      rw [h1] at h
      cases h2 : Queens.invRegionsGo b rest with
      | none => rw [h2] at h; simp at h
      | some ls =>
        rw [h2] at h
        simp only at h
        injection h with h
        rw [← h] at hp
        rcases List.mem_append.mp hp with hg | hr
        · exact ⟨g, lg, by simp, h1, hg⟩
        · obtain ⟨g', lg', hg', hinv', hp'⟩ := ih ls h2 p hr
          exact ⟨g', lg', List.mem_cons_of_mem g hg', hinv', hp'⟩

/-- Positions produced by rule 2 (rows) are in bounds. -/
theorem queens_rowRule_inbounds (b : Queens.Board)
    (hwf : b.cells.length = b.width * b.height) :
    ∀ p ∈ Queens.rowRuleInvalids b, ind p b.width < b.cells.length := by
  intro p hp
  unfold Queens.rowRuleInvalids at hp
  rcases List.mem_flatMap.mp hp with ⟨y, -, hin⟩
  by_cases hq : ((Queens.getRow b y).any fun c => c.q) = true
  · rw [if_pos hq] at hin
    cases hin
  · rw [if_neg hq] at hin
    rcases hrids : ((List.filter (fun c => !c.m) (Queens.getRow b y)).map
        fun c => c.r).eraseDups with _ | ⟨rid, rest⟩
    · rw [hrids] at hin; cases hin
    · rw [hrids] at hin
      cases rest with
      | nil =>
        simp only at hin
        rcases List.mem_filterMap.mp hin with ⟨i, hi, hsome⟩
        have hi' : i < b.width * b.height :=
          List.mem_range.mp (List.mem_filter.mp hi).1
        by_cases hy : (posOf i b.width).y ≠ y
        · rw [if_pos hy] at hsome
          injection hsome with hsome
          rw [← hsome, ind_posOf, hwf]
          exact hi'
        · rw [if_neg hy] at hsome; cases hsome
      | cons r2 rest2 => simp only at hin; cases hin

/-- Positions produced by rule 2 (columns) are in bounds. -/
theorem queens_colRule_inbounds (b : Queens.Board)
    (hwf : b.cells.length = b.width * b.height) :
    ∀ p ∈ Queens.colRuleInvalids b, ind p b.width < b.cells.length := by
  intro p hp
  unfold Queens.colRuleInvalids at hp
  rcases List.mem_flatMap.mp hp with ⟨x, -, hin⟩
  by_cases hq : ((Queens.getColumn b x).any fun c => c.q) = true
  · rw [if_pos hq] at hin
    cases hin
  · rw [if_neg hq] at hin
    rcases hrids : ((List.filter (fun c => !c.m) (Queens.getColumn b x)).map
        fun c => c.r).eraseDups with _ | ⟨rid, rest⟩
    · rw [hrids] at hin; cases hin
    · rw [hrids] at hin
      cases rest with
      | nil =>
        simp only at hin
        rcases List.mem_filterMap.mp hin with ⟨i, hi, hsome⟩
        have hi' : i < b.width * b.height :=
          List.mem_range.mp (List.mem_filter.mp hi).1
        by_cases hx : (posOf i b.width).x ≠ x
        · rw [if_pos hx] at hsome
          injection hsome with hsome
          rw [← hsome, ind_posOf, hwf]
          exact hi'
        · rw [if_neg hx] at hsome; cases hsome
      | cons r2 rest2 => simp only at hin; cases hin

/-- Every position returned by `getInvalidPlacements` is in bounds and
unmarked. -/
theorem queens_getInvalid_inbounds_unmarked (b : Queens.Board)
    (inv : List Pos) (hwf : b.cells.length = b.width * b.height)
    (h : Queens.getInvalidPlacements b = some inv) :
    ∀ p ∈ inv, ind p b.width < b.cells.length ∧
      (Queens.cellIdx b (ind p b.width)).m = false := by
  unfold Queens.getInvalidPlacements at h
  cases hgo : Queens.invRegionsGo b (Queens.unoccRegionGroups b) with
  | none => rw [hgo] at h; simp at h
  | some l1 =>
    rw [hgo] at h
    simp only at h
    injection h with h
    intro p hp
    rw [← h] at hp
    rcases List.mem_filter.mp hp with ⟨hbig, hnm⟩
    refine ⟨?_, by simpa [Queens.positionIsMarked] using hnm⟩
    rcases List.mem_append.mp hbig with h12 | hcol
    · rcases List.mem_append.mp h12 with h1 | hrow
      · obtain ⟨g, lg, hg, hinv, hplg⟩ :=
          queens_invRegionsGo_mem b _ l1 hgo p h1
        refine queens_invalidOfRegion_inbounds b g lg hwf ?_ hinv p hplg
        intro c hc
        unfold Queens.unoccRegionGroups at hg
        rcases List.mem_map.mp hg with ⟨g0, hg0, hgeq⟩
        rw [← hgeq] at hc
        have hc0 : c ∈ g0 := (List.mem_filter.mp hc).1
        have hg0' : g0 ∈ ((ascKeys (b.cells.map fun c => c.r)).map fun rid =>
            (Queens.withPos b).filter fun c => c.2.r = rid) :=
          (List.mem_filter.mp hg0).1
        rcases List.mem_map.mp hg0' with ⟨rid, -, hg0eq⟩
        rw [← hg0eq] at hc0
        exact queens_withPos_mem b c (List.mem_filter.mp hc0).1
      · exact queens_rowRule_inbounds b hwf p hrow
    · exact queens_colRule_inbounds b hwf p hcol

/-- A `collapseStep` reporting no change returns the input board
unchanged. -/
theorem queens_step_false (b b' : Queens.Board)
    (h : Queens.collapseStep b = some (false, b')) :
    b' = b ∧ Queens.collapseStep b = some (false, b) := by
  unfold Queens.collapseStep at h ⊢
  cases hinv : Queens.getInvalidPlacements
      ((Queens.commitsOf b).foldl Queens.addQueenAtPosition b) with
  | none => rw [hinv] at h; cases h
  | some inv =>
    rw [hinv] at h
    dsimp only at h
    by_cases hie : inv = []
    · rw [if_pos hie] at h
      injection h with h
      have hch : (!(Queens.commitsOf b).isEmpty) = false ∧
          (Queens.commitsOf b).foldl Queens.addQueenAtPosition b = b' := by
        constructor
        · exact congrArg Prod.fst h
        · exact congrArg Prod.snd h
      have hempty : Queens.commitsOf b = [] := by
        rcases hc : Queens.commitsOf b with _ | ⟨p, rest⟩
        · rfl
        · rw [hc] at hch; simp at hch
      rw [hempty] at hch
      simp only [List.foldl_nil] at hch
      refine ⟨hch.2.symm, ?_⟩
      dsimp only
      rw [if_pos hie, hempty]
      simp
    · rw [if_neg hie] at h
      injection h with h
      have := congrArg Prod.fst h
      simp at this

/-- A `collapseStep` preserves the board dimensions and cell count. -/
theorem queens_step_shape (b : Queens.Board) (ch : Bool) (b' : Queens.Board)
    (h : Queens.collapseStep b = some (ch, b')) :
    b'.width = b.width ∧ b'.height = b.height ∧
    b'.cells.length = b.cells.length := by
  unfold Queens.collapseStep at h
  cases hinv : Queens.getInvalidPlacements
      ((Queens.commitsOf b).foldl Queens.addQueenAtPosition b) with
  | none => rw [hinv] at h; cases h
  | some inv =>
    rw [hinv] at h
    dsimp only at h
    obtain ⟨wq, hq, lq, -, -⟩ := queens_fold_addQueen_facts
      (Queens.commitsOf b) b
    by_cases hie : inv = []
    · rw [if_pos hie] at h
      injection h with h
      have hb' := congrArg Prod.snd h
      simp only at hb'
      rw [← hb']
      exact ⟨wq, hq, lq⟩
    · rw [if_neg hie] at h
      injection h with h
      have hb' := congrArg Prod.snd h
      simp only at hb'
      rw [← hb']
      obtain ⟨wm, hm, lm, -, -⟩ := queens_fold_mark_facts inv
        ((Queens.commitsOf b).foldl Queens.addQueenAtPosition b)
      exact ⟨wm.trans wq, hm.trans hq, lm.trans lq⟩

/-- A changed `collapseStep` on a well-formed board strictly increases the
combined queen-and-mark count. -/
theorem queens_step_true_measure (b b' : Queens.Board)
    (hwf : b.cells.length = b.width * b.height)
    (h : Queens.collapseStep b = some (true, b')) :
    (b.cells.filter (fun c => c.q)).length +
      (b.cells.filter (fun c => c.m)).length <
    (b'.cells.filter (fun c => c.q)).length +
      (b'.cells.filter (fun c => c.m)).length := by
  unfold Queens.collapseStep at h
  cases hinv : Queens.getInvalidPlacements
      ((Queens.commitsOf b).foldl Queens.addQueenAtPosition b) with
  | none => rw [hinv] at h; cases h
  | some inv =>
    rw [hinv] at h
    dsimp only at h
    by_cases hie : inv = []
    · rw [if_pos hie] at h
      injection h with h
      have hch := congrArg Prod.fst h
      have hb' := congrArg Prod.snd h
      simp only at hch hb'
      rcases hc : Queens.commitsOf b with _ | ⟨p0, rest⟩
      · rw [hc] at hch; simp at hch
      · have hp0 : p0 ∈ Queens.getValidPlacements b :=
          queens_commits_mem b p0 (by rw [hc]; simp)
        obtain ⟨i, hilt, hpi, hqf⟩ := queens_vp_mem b p0 hp0
        have hind : ind p0 b.width = i := by rw [hpi, ind_posOf]
        have hstrict : (b.cells.filter (fun c => c.q)).length <
            ((Queens.addQueenAtPosition b p0).cells.filter
              (fun c => c.q)).length := by
          refine queens_addQueen_qcount_lt b p0 ?_ ?_
          · rw [hind, hwf]; exact hilt
          · rw [hind]; exact hqf
        obtain ⟨-, -, -, qfold, mfold⟩ := queens_fold_addQueen_facts rest
          (Queens.addQueenAtPosition b p0)
        obtain ⟨-, -, -, -, mone⟩ := queens_addQueen_facts b p0
        rw [← hb', hc]
        simp only [List.foldl_cons]
        have hq' : (b.cells.filter (fun c => c.q)).length <
            ((rest.foldl Queens.addQueenAtPosition
              (Queens.addQueenAtPosition b p0)).cells.filter
                (fun c => c.q)).length := lt_of_lt_of_le hstrict qfold
        omega
    · rw [if_neg hie] at h
      injection h with h
      have hb' := congrArg Prod.snd h
      simp only at hb'
      obtain ⟨wq, hq, lq, qfold, mfold⟩ := queens_fold_addQueen_facts
        (Queens.commitsOf b) b
      have hwff : ((Queens.commitsOf b).foldl Queens.addQueenAtPosition
          b).cells.length =
          ((Queens.commitsOf b).foldl Queens.addQueenAtPosition b).width *
          ((Queens.commitsOf b).foldl Queens.addQueenAtPosition b).height := by
        rw [lq, wq, hq]
        exact hwf
      rcases hinvl : inv with _ | ⟨q0, restinv⟩
      · exact absurd hinvl hie
      · have hq0 := queens_getInvalid_inbounds_unmarked _ inv hwff hinv q0
          (by rw [hinvl]; simp)
        have hsplit : Queens.markInvalidPositions
            ((Queens.commitsOf b).foldl Queens.addQueenAtPosition b) inv =
            Queens.markInvalidPositions (Queens.markInvalidPositions
              ((Queens.commitsOf b).foldl Queens.addQueenAtPosition b) [q0])
              restinv := by
          rw [hinvl]
          simp [Queens.markInvalidPositions]
        have hmark1 := queens_mark_mcount_lt
          ((Queens.commitsOf b).foldl Queens.addQueenAtPosition b) q0
          hq0.1 hq0.2
        obtain ⟨-, -, -, qm1, -⟩ := queens_mark_facts
          ((Queens.commitsOf b).foldl Queens.addQueenAtPosition b) q0
        obtain ⟨-, -, -, qm2, mm2⟩ := queens_fold_mark_facts restinv
          (Queens.markInvalidPositions
            ((Queens.commitsOf b).foldl Queens.addQueenAtPosition b) [q0])
        rw [← hb', hsplit]
        omega

/-- With fuel exceeding the queen-and-mark deficit, the Queens `collapse`
recursion either crashes or reaches a genuine fixpoint. -/
theorem queens_collapseFuel_fixed :
    ∀ (n : Nat) (b : Queens.Board),
      b.cells.length = b.width * b.height →
      2 * b.cells.length - ((b.cells.filter (fun c => c.q)).length +
        (b.cells.filter (fun c => c.m)).length) < n →
      Queens.collapseFuel n b = none ∨
      ∃ c, Queens.collapseFuel n b = some c ∧
        Queens.collapseStep c = some (false, c) := by
  intro n
  induction n with
  | zero => intro b _ hb; exact absurd hb (by simp)
  | succ m ih =>
    intro b hwf hb
    cases hstep : Queens.collapseStep b with
    | none =>
      left
      simp [Queens.collapseFuel, hstep]
    | some res =>
      obtain ⟨ch, b'⟩ := res
      cases ch with
      | false =>
        right
        obtain ⟨heq, hstep'⟩ := queens_step_false b b' hstep
        refine ⟨b, ?_, hstep'⟩
        simp [Queens.collapseFuel, hstep', heq]
      | true =>
        have hrec : Queens.collapseFuel (m + 1) b =
            Queens.collapseFuel m b' := by
          simp [Queens.collapseFuel, hstep]
        rw [hrec]
        obtain ⟨hw, hh, hl⟩ := queens_step_shape b true b' hstep
        have hwf' : b'.cells.length = b'.width * b'.height := by
          rw [hl, hw, hh]; exact hwf
        have hmeas := queens_step_true_measure b b' hwf hstep
        have hqb : (b'.cells.filter (fun c => c.q)).length ≤
            b'.cells.length := List.length_filter_le _ _
        have hmb : (b'.cells.filter (fun c => c.m)).length ≤
            b'.cells.length := List.length_filter_le _ _
        refine ih b' hwf' ?_
        omega

/-! ### Distinctness of the hashes cached in one Tango expansion step -/

/-- `posOf` is injective in the index (for a fixed width). -/
theorem posOf_inj (w i j : Nat) (h : posOf i w = posOf j w) : i = j := by
  have h1 := congrArg (fun p => ind p w) h
  simpa [ind_posOf] using h1

/-- Pairing each element of a duplicate-free index list with both symbols
yields a duplicate-free pair list. -/
theorem flat_pairs_nodup (l : List Nat) (hl : l.Nodup) :
    (l.flatMap fun i => [(i, Tango.Val.m), (i, Tango.Val.s)]).Nodup := by
  induction l with
  | nil => simp
  | cons i t ih =>
    rcases List.nodup_cons.mp hl with ⟨hni, hnt⟩
    rw [List.flatMap_cons]
    refine List.Nodup.append (by simp) (ih hnt) ?_
    intro x hx hx'
    rcases List.mem_flatMap.mp hx' with ⟨j, hj, hxj⟩
    have hxi : x.1 = i := by
      simp only [List.mem_cons, List.mem_singleton, List.not_mem_nil,
        or_false] at hx
      rcases hx with hx | hx <;> rw [hx]
    have hxjj : x.1 = j := by
      simp only [List.mem_cons, List.mem_singleton, List.not_mem_nil,
        or_false] at hxj
      rcases hxj with hxj | hxj <;> rw [hxj]
    exact hni (by rw [← hxjj, hxi] at hj; exact hj)

/-- `indexValuePairs` has no duplicate entries. -/
theorem tango_ivp_nodup (n : Nat) : (Tango.indexValuePairs n).Nodup := by
  unfold Tango.indexValuePairs range
  exact flat_pairs_nodup (List.range n) (List.nodup_range n)

/-- `getValidMoves` returns a duplicate-free move list. -/
theorem tango_vm_nodup (b : Tango.Board) : (Tango.getValidMoves b).Nodup := by
  unfold Tango.getValidMoves
  refine List.Nodup.map_on ?_ (List.Nodup.filter _ (tango_ivp_nodup _))
  intro iv1 h1 iv2 h2 heq
  have hp : posOf iv1.1 b.width = posOf iv2.1 b.width :=
    congrArg Tango.Move.p heq
  have hv : iv1.2 = iv2.2 := congrArg Tango.Move.v heq
  have hi := posOf_inj b.width iv1.1 iv2.1 hp
  rcases iv1 with ⟨a1, b1⟩
  rcases iv2 with ⟨a2, b2⟩
  simp only at hi hv
  rw [hi, hv]

/-- Every valid move targets an in-range empty cell, and its position is
the decoding of its index. -/
theorem tango_vm_mem (b : Tango.Board) (mv : Tango.Move)
    (h : mv ∈ Tango.getValidMoves b) :
    ∃ i, i < b.height * b.width ∧ mv.p = posOf i b.width ∧
      Tango.cellIdx b i = none := by
  unfold Tango.getValidMoves at h
  rcases List.mem_map.mp h with ⟨iv, hiv, heq⟩
  rcases List.mem_filter.mp hiv with ⟨hmem, hcond⟩
  have hlt : iv.1 < b.height * b.width := by
    unfold Tango.indexValuePairs range at hmem
    rcases List.mem_flatMap.mp hmem with ⟨j, hj, hx⟩
    have hj' : j < b.height * b.width := List.mem_range.mp hj
    have hx1 : iv.1 = j := by
      simp only [List.mem_cons, List.mem_singleton, List.not_mem_nil,
        or_false] at hx
      rcases hx with hx | hx <;> rw [hx]
    rw [hx1]
    exact hj'
  have hcnone : Tango.cellIdx b iv.1 = none := by
    simp only [Bool.and_eq_true, decide_eq_true_eq] at hcond
    exact hcond.1.1.1.1
  refine ⟨iv.1, hlt, ?_, hcnone⟩
  rw [← heq]

/-- Two distinct valid moves of a well-formed board produce post-move
states with distinct canonical serializations. -/
theorem tango_move_hash_inj (v : Tango.Board)
    (hwf : v.cells.length = v.width * v.height)
    (mv1 mv2 : Tango.Move) (h1 : mv1 ∈ Tango.getValidMoves v)
    (h2 : mv2 ∈ Tango.getValidMoves v)
    (heq : Tango.hashState (Tango.addValueAtPosition v mv1.p (some mv1.v)) =
      Tango.hashState (Tango.addValueAtPosition v mv2.p (some mv2.v))) :
    mv1 = mv2 := by
  obtain ⟨i1, hi1, hp1, hc1⟩ := tango_vm_mem v mv1 h1
  obtain ⟨i2, hi2, hp2, hc2⟩ := tango_vm_mem v mv2 h2
  have hl1 : i1 < v.cells.length := by rw [hwf, Nat.mul_comm]; exact hi1
  have hl2 : i2 < v.cells.length := by rw [hwf, Nat.mul_comm]; exact hi2
  simp only [Tango.hashState, Tango.addValueAtPosition] at heq
  rw [hp1, hp2, ind_posOf, ind_posOf] at heq
  have hA := congrArg (fun l => l[i1]?) heq
  simp only [List.getElem?_map] at hA
  rw [List.getElem?_set_eq_of_lt _ hl1] at hA
  by_cases hii : i1 = i2
  · subst hii
    rw [List.getElem?_set_eq_of_lt _ hl1] at hA
    have hv : mv1.v = mv2.v := by
      cases hv1 : mv1.v <;> cases hv2 : mv2.v <;>
        rw [hv1, hv2] at hA <;> first | rfl | exact absurd hA (by decide)
    have hp : mv1.p = mv2.p := by rw [hp1, hp2]
    rw [show mv1 = (⟨mv1.p, mv1.v⟩ : Tango.Move) from rfl,
      show mv2 = (⟨mv2.p, mv2.v⟩ : Tango.Move) from rfl, hp, hv]
  · rw [List.getElem?_set_ne (Ne.symm hii)] at hA
    have hcell : v.cells[i1]? = some none := by
      have hg := hc1
      unfold Tango.cellIdx at hg
      rw [List.getD_eq_getElem?_getD, List.getElem?_eq_getElem hl1] at hg
      simp only [Option.getD_some] at hg
      rw [List.getElem?_eq_getElem hl1, hg]
    rw [hcell] at hA
    cases hv1 : mv1.v <;> rw [hv1] at hA <;> exact absurd hA (by decide)

/-- The hashes cached in one expansion step — those of the sorted surviving
candidates' pre-propagation states — are pairwise distinct (for a
well-formed popped board). -/
theorem tango_batch_nodup (v : Tango.Board)
    (hwf : v.cells.length = v.width * v.height)
    (visited : List (List Char)) :
    ((Tango.sortedSurviving v visited).map fun a =>
      Tango.hashState a.state).Nodup := by
  have hperm : List.Perm
      ((Tango.sortedSurviving v visited).map fun a => Tango.hashState a.state)
      ((Tango.surviving v visited).map fun a => Tango.hashState a.state) :=
    (perm_sortBy _ _).map _
  rw [hperm.nodup_iff]
  have hsub : List.Sublist
      ((Tango.surviving v visited).map fun a => Tango.hashState a.state)
      ((Tango.adjacents v).map fun a => Tango.hashState a.state) :=
    List.Sublist.map _ (List.filter_sublist _)
  refine List.Nodup.sublist hsub ?_
  unfold Tango.adjacents
  rw [List.map_map]
  refine List.Nodup.map_on ?_ (tango_vm_nodup v)
  intro mv1 h1 mv2 h2 heq
  exact tango_move_hash_inj v hwf mv1 mv2 h1 h2 heq

/-- The state-transforming fold of a Tango `collapse` pass preserves the
board dimensions, constraints, initial cells and cell count. -/
theorem tango_fold_addValue_shape (mvs : List (Pos × Tango.Val)) :
    ∀ acc : Tango.Board,
      (mvs.foldl (fun acc pv =>
        Tango.addValueAtPosition acc pv.1 (some pv.2)) acc).width =
          acc.width ∧
      (mvs.foldl (fun acc pv =>
        Tango.addValueAtPosition acc pv.1 (some pv.2)) acc).height =
          acc.height ∧
      (mvs.foldl (fun acc pv =>
        Tango.addValueAtPosition acc pv.1 (some pv.2)) acc).constraints =
          acc.constraints ∧
      (mvs.foldl (fun acc pv =>
        Tango.addValueAtPosition acc pv.1 (some pv.2)) acc).initialCells =
          acc.initialCells ∧
      (mvs.foldl (fun acc pv =>
        Tango.addValueAtPosition acc pv.1 (some pv.2)) acc).cells.length =
          acc.cells.length := by
  induction mvs with
  | nil => intro acc; exact ⟨rfl, rfl, rfl, rfl, rfl⟩
  | cons pv rest ih =>
    intro acc
    rw [List.foldl_cons]
    obtain ⟨w, h, c, ic, l⟩ := ih (Tango.addValueAtPosition acc pv.1 (some pv.2))
    refine ⟨w, h, c, ic, l.trans ?_⟩
    simp [Tango.addValueAtPosition]

/-- `collapseFuel` preserves the board dimensions, constraints, initial
cells and cell count. -/
theorem tango_collapseFuel_shape : ∀ (n : Nat) (b : Tango.Board),
    (Tango.collapseFuel n b).width = b.width ∧
    (Tango.collapseFuel n b).height = b.height ∧
    (Tango.collapseFuel n b).constraints = b.constraints ∧
    (Tango.collapseFuel n b).initialCells = b.initialCells ∧
    (Tango.collapseFuel n b).cells.length = b.cells.length := by
  intro n
  induction n with
  | zero => intro b; exact ⟨rfl, rfl, rfl, rfl, rfl⟩
  | succ m ih =>
    intro b
    by_cases hf : Tango.forcedMoves b = []
    · simp [Tango.collapseFuel, hf]
    · have hstep : Tango.collapseFuel (m + 1) b =
          Tango.collapseFuel m (Tango.collapsePass b) := by
        simp [Tango.collapseFuel, hf]
      rw [hstep]
      obtain ⟨w, h, c, ic, l⟩ := ih (Tango.collapsePass b)
      obtain ⟨w2, h2, c2, ic2, l2⟩ := tango_fold_addValue_shape
        (Tango.forcedMoves b) b
      exact ⟨w.trans w2, h.trans h2, c.trans c2, ic.trans ic2, l.trans l2⟩

/-- The `visited` cache of the Tango `solve` loop never receives a
duplicate hash: starting from a duplicate-free cache and a stack of
well-formed boards, the final cache is duplicate-free. -/
theorem tango_solveLoopVisited_nodup :
    ∀ (fuel : Nat) (stack : List Tango.Board) (visited : List (List Char)),
      (∀ st ∈ stack, st.cells.length = st.width * st.height) →
      visited.Nodup →
      (Tango.solveLoopVisited fuel stack visited).Nodup := by
  intro fuel
  induction fuel with
  | zero => intro stack visited _ hv; simpa [Tango.solveLoopVisited] using hv
  | succ m ih =>
    intro stack visited hwf hv
    cases stack with
    | nil => simpa [Tango.solveLoopVisited] using hv
    | cons v rest =>
      by_cases hwin : Tango.checkWin v = true
      · simpa [Tango.solveLoopVisited, hwin] using hv
      · have hvwf := hwf v (List.mem_cons_self _ _)
        have hrec : Tango.solveLoopVisited (m + 1) (v :: rest) visited =
            Tango.solveLoopVisited m
              (((Tango.sortedSurviving v visited).map fun a =>
                Tango.collapse a.state).reverse ++ rest)
              (visited ++ (Tango.sortedSurviving v visited).map fun a =>
                Tango.hashState a.state) := by
          simp [Tango.solveLoopVisited, hwin]
        rw [hrec]
        refine ih _ _ ?_ ?_
        · intro st hst
          rcases List.mem_append.mp hst with hst | hst
          · rw [List.mem_reverse] at hst
            rcases List.mem_map.mp hst with ⟨a, ha, haeq⟩
            have ha1 : a ∈ Tango.surviving v visited :=
              (mem_sortBy _ _ _).mp ha
            have ha2 : a ∈ Tango.adjacents v := (List.mem_filter.mp ha1).1
            rcases List.mem_map.mp ha2 with ⟨mv, hmv, hmeq⟩
            have hstate : a.state =
                Tango.addValueAtPosition v mv.p (some mv.v) := by
              rw [← hmeq]
            obtain ⟨cw, chh, -, -, cl⟩ := tango_collapseFuel_shape
              (Tango.countEmpties a.state.cells + 1) a.state
            rw [← haeq]
            show (Tango.collapseFuel (Tango.countEmpties a.state.cells + 1)
                a.state).cells.length =
              (Tango.collapseFuel (Tango.countEmpties a.state.cells + 1)
                a.state).width *
              (Tango.collapseFuel (Tango.countEmpties a.state.cells + 1)
                a.state).height
            rw [cw, chh, cl, hstate]
            show (v.cells.set (ind mv.p v.width) (some mv.v)).length =
              v.width * v.height
            rw [List.length_set]
            exact hvwf
          · exact hwf st (List.mem_cons_of_mem _ hst)
        · refine List.Nodup.append hv (tango_batch_nodup v hvwf visited) ?_
          intro x hxv hxb
          rcases List.mem_map.mp hxb with ⟨a, ha, haeq⟩
          have ha1 : a ∈ Tango.surviving v visited := (mem_sortBy _ _ _).mp ha
          have hfilt := (List.mem_filter.mp ha1).2
          have hnotin : Tango.hashState a.state ∉ visited := by
            simpa using hfilt
          exact hnotin (haeq ▸ hxv)

/-! ### Frame conditions of the cell-level transformers -/

/-- `getD` after `set`: the written value exactly at an in-range written
index, the old lookup everywhere else. -/
theorem getD_set_general {α : Type} (l : List α) (j i : Nat) (x d : α) :
    (l.set j x).getD i d =
      if j = i ∧ j < l.length then x else l.getD i d := by
  rw [List.getD_eq_getElem?_getD, List.getD_eq_getElem?_getD,
    List.getElem?_set]
  by_cases h1 : j = i
  · subst h1
    by_cases h2 : j < l.length
    · simp [h2]
    · simp only [h2, and_false, if_false, if_true, if_pos rfl, if_neg h2]
      rw [List.getElem?_eq_none (Nat.le_of_not_lt h2)]
  · simp [h1]

/-- The off-target frame of `addValueAtPosition`: every other index reads
unchanged. -/
theorem tango_cellIdx_addValue (b : Tango.Board) (p : Pos) (v : Tango.TCell)
    (i : Nat) (h : i ≠ ind p b.width) :
    Tango.cellIdx (Tango.addValueAtPosition b p v) i = Tango.cellIdx b i := by
  show (b.cells.set (ind p b.width) v).getD i none = b.cells.getD i none
  rw [getD_set_general]
  exact if_neg (fun hcon => h hcon.1.symm)

/-- The off-target frame of the Queens `addQueenAtPosition`. -/
theorem queens_cellIdx_addQueen_ne (b : Queens.Board) (p : Pos) (i : Nat)
    (h : i ≠ ind p b.width) :
    Queens.cellIdx (Queens.addQueenAtPosition b p) i = Queens.cellIdx b i := by
  show (b.cells.set (ind p b.width)
      { Queens.cellIdx b (ind p b.width) with q := true }).getD i
      Queens.defaultCell = b.cells.getD i Queens.defaultCell
  rw [getD_set_general]
  exact if_neg (fun hcon => h hcon.1.symm)

/-- The off-target frame of `clearPosition`. -/
theorem queens_cellIdx_clear_ne (b : Queens.Board) (p : Pos) (i : Nat)
    (h : i ≠ ind p b.width) :
    Queens.cellIdx (Queens.clearPosition b p) i = Queens.cellIdx b i := by
  show (b.cells.set (ind p b.width)
      { Queens.cellIdx b (ind p b.width) with q := false, m := false }).getD i
      Queens.defaultCell = b.cells.getD i Queens.defaultCell
  rw [getD_set_general]
  exact if_neg (fun hcon => h hcon.1.symm)

/-- `addQueenAtPosition` changes only the `q` flag: region ids and marks
read unchanged at every index. -/
theorem queens_cellIdx_addQueen_rm (b : Queens.Board) (p : Pos) (i : Nat) :
    (Queens.cellIdx (Queens.addQueenAtPosition b p) i).r =
      (Queens.cellIdx b i).r ∧
    (Queens.cellIdx (Queens.addQueenAtPosition b p) i).m =
      (Queens.cellIdx b i).m := by
  have hset : Queens.cellIdx (Queens.addQueenAtPosition b p) i =
      (b.cells.set (ind p b.width)
        { Queens.cellIdx b (ind p b.width) with q := true }).getD i
        Queens.defaultCell := rfl
  rw [hset, getD_set_general]
  by_cases hcon : ind p b.width = i ∧ ind p b.width < b.cells.length
  · rw [if_pos hcon, ← hcon.1]
    exact ⟨rfl, rfl⟩
  · rw [if_neg hcon]
    exact ⟨rfl, rfl⟩

/-- `markInvalidPositions` changes only `m` flags: region ids and queen
flags read unchanged at every index. -/
theorem queens_mark_rq_all (pp : List Pos) : ∀ (acc : Queens.Board) (i : Nat),
    (Queens.cellIdx (Queens.markInvalidPositions acc pp) i).r =
      (Queens.cellIdx acc i).r ∧
    (Queens.cellIdx (Queens.markInvalidPositions acc pp) i).q =
      (Queens.cellIdx acc i).q := by
  induction pp with
  | nil => intro acc i; exact ⟨rfl, rfl⟩
  | cons p rest ih =>
    intro acc i
    have hstep : Queens.markInvalidPositions acc (p :: rest) =
        Queens.markInvalidPositions (Queens.markInvalidPositions acc [p])
          rest := rfl
    rw [hstep]
    obtain ⟨hr, hq⟩ := ih (Queens.markInvalidPositions acc [p]) i
    rw [hr, hq]
    have hset : Queens.cellIdx (Queens.markInvalidPositions acc [p]) i =
        (acc.cells.set (ind p acc.width)
          ({ Queens.cellIdx acc (ind p acc.width) with m := true })).getD i
          Queens.defaultCell := rfl
    rw [hset, getD_set_general]
    by_cases hcon : ind p acc.width = i ∧ ind p acc.width < acc.cells.length
    · rw [if_pos hcon, ← hcon.1]
      exact ⟨rfl, rfl⟩
    · rw [if_neg hcon]
      exact ⟨rfl, rfl⟩

/-- The off-target frame of `markInvalidPositions`: indices not addressed
by the position list read unchanged. -/
theorem queens_mark_frame (pp : List Pos) : ∀ (acc : Queens.Board) (i : Nat),
    (∀ p ∈ pp, ind p acc.width ≠ i) →
    Queens.cellIdx (Queens.markInvalidPositions acc pp) i =
      Queens.cellIdx acc i := by
  induction pp with
  | nil => intro acc i _; rfl
  | cons p rest ih =>
    intro acc i hpp
    have hstep : Queens.markInvalidPositions acc (p :: rest) =
        Queens.markInvalidPositions (Queens.markInvalidPositions acc [p])
          rest := rfl
    have hrest : ∀ p2 ∈ rest,
        ind p2 (Queens.markInvalidPositions acc [p]).width ≠ i :=
      fun p2 hp2 => hpp p2 (List.mem_cons_of_mem _ hp2)
    rw [hstep, ih _ i hrest]
    have hset : Queens.cellIdx (Queens.markInvalidPositions acc [p]) i =
        (acc.cells.set (ind p acc.width)
          ({ Queens.cellIdx acc (ind p acc.width) with m := true })).getD i
          Queens.defaultCell := rfl
    rw [hset, getD_set_general]
    exact if_neg (fun hcon => hpp p (List.mem_cons_self _ _) hcon.1)

/-- Committing queens preserves region ids at every index. -/
theorem queens_fold_addQueen_r (commits : List Pos) :
    ∀ (acc : Queens.Board) (i : Nat),
      (Queens.cellIdx (commits.foldl Queens.addQueenAtPosition acc) i).r =
        (Queens.cellIdx acc i).r := by
  induction commits with
  | nil => intro acc i; rfl
  | cons p rest ih =>
    intro acc i
    rw [List.foldl_cons, ih (Queens.addQueenAtPosition acc p) i]
    exact (queens_cellIdx_addQueen_rm acc p i).1

/-- One `collapseStep` preserves region ids at every index. -/
theorem queens_step_r (b : Queens.Board) (ch : Bool) (b' : Queens.Board)
    (h : Queens.collapseStep b = some (ch, b')) (i : Nat) :
    (Queens.cellIdx b' i).r = (Queens.cellIdx b i).r := by
  unfold Queens.collapseStep at h
  cases hinv : Queens.getInvalidPlacements
      ((Queens.commitsOf b).foldl Queens.addQueenAtPosition b) with
  | none => rw [hinv] at h; cases h
  | some inv =>
    rw [hinv] at h
    dsimp only at h
    by_cases hie : inv = []
    · rw [if_pos hie] at h
      simp only [Option.some.injEq, Prod.mk.injEq] at h
      rw [← h.2]
      exact queens_fold_addQueen_r _ b i
    · rw [if_neg hie] at h
      simp only [Option.some.injEq, Prod.mk.injEq] at h
      rw [← h.2]
      rw [(queens_mark_rq_all inv _ i).1]
      exact queens_fold_addQueen_r _ b i

/-- A successful `collapseFuel` run preserves dimensions, cell count and
region ids. -/
theorem queens_collapseFuel_frame : ∀ (n : Nat) (b c : Queens.Board),
    Queens.collapseFuel n b = some c →
    c.width = b.width ∧ c.height = b.height ∧
    c.cells.length = b.cells.length ∧
    ∀ i, (Queens.cellIdx c i).r = (Queens.cellIdx b i).r := by
  intro n
  induction n with
  | zero =>
    intro b c h
    have hbc : b = c := Option.some.inj h
    subst hbc
    exact ⟨rfl, rfl, rfl, fun _ => rfl⟩
  | succ m ih =>
    intro b c h
    cases hstep : Queens.collapseStep b with
    | none =>
      have hz : Queens.collapseFuel (m + 1) b = none := by
        simp [Queens.collapseFuel, hstep]
      rw [hz] at h
      cases h
    | some res =>
      obtain ⟨chb, b'⟩ := res
      cases chb with
      | false =>
        have hz : Queens.collapseFuel (m + 1) b = some b' := by
          simp [Queens.collapseFuel, hstep]
        rw [hz] at h
        have hbc : b' = c := Option.some.inj h
        subst hbc
        obtain ⟨hw, hh, hl⟩ := queens_step_shape b false b' hstep
        exact ⟨hw, hh, hl, fun i => queens_step_r b false b' hstep i⟩
      | true =>
        have hz : Queens.collapseFuel (m + 1) b = Queens.collapseFuel m b' := by
          simp [Queens.collapseFuel, hstep]
        rw [hz] at h
        obtain ⟨hw, hh, hl, hr⟩ := ih b' c h
        obtain ⟨hw2, hh2, hl2⟩ := queens_step_shape b true b' hstep
        exact ⟨hw.trans hw2, hh.trans hh2, hl.trans hl2,
          fun i => (hr i).trans (queens_step_r b true b' hstep i)⟩

/-- The fold of a Tango `collapse` pass, applied to forced moves that all
target cells empty in the reference board, leaves every filled cell of the
reference board unchanged. -/
theorem tango_fold_addValue_keep (mvs : List (Pos × Tango.Val))
    (b : Tango.Board) :
    ∀ acc : Tango.Board, acc.width = b.width →
      (∀ pv ∈ mvs, Tango.cellIdx b (ind pv.1 b.width) = none) →
      (∀ i, Tango.cellIdx b i ≠ none →
        Tango.cellIdx acc i = Tango.cellIdx b i) →
      ∀ i, Tango.cellIdx b i ≠ none →
        Tango.cellIdx (mvs.foldl (fun acc pv =>
          Tango.addValueAtPosition acc pv.1 (some pv.2)) acc) i =
          Tango.cellIdx b i := by
  induction mvs with
  | nil => intro acc _ _ hinv i hi; exact hinv i hi
  | cons pv rest ih =>
    intro acc hw hmv hinv i hi
    rw [List.foldl_cons]
    refine ih (Tango.addValueAtPosition acc pv.1 (some pv.2)) hw
      (fun pv2 h2 => hmv pv2 (List.mem_cons_of_mem _ h2)) ?_ i hi
    intro i2 hi2
    have hne : i2 ≠ ind pv.1 acc.width := by
      intro heq2
      have hforced := hmv pv (List.mem_cons_self _ _)
      rw [hw] at heq2
      rw [heq2] at hi2
      exact hi2 hforced
    rw [tango_cellIdx_addValue acc pv.1 (some pv.2) i2 hne]
    exact hinv i2 hi2

/-- One `collapse` pass leaves every already-filled cell unchanged. -/
theorem tango_collapsePass_keep (b : Tango.Board) (i : Nat)
    (h : Tango.cellIdx b i ≠ none) :
    Tango.cellIdx (Tango.collapsePass b) i = Tango.cellIdx b i := by
  refine tango_fold_addValue_keep (Tango.forcedMoves b) b b rfl ?_
    (fun _ _ => rfl) i h
  intro pv hpv
  exact (tango_forced_mem b pv hpv).2

/-- `collapseFuel` leaves every already-filled cell unchanged. -/
theorem tango_collapseFuel_keep : ∀ (n : Nat) (b : Tango.Board) (i : Nat),
    Tango.cellIdx b i ≠ none →
    Tango.cellIdx (Tango.collapseFuel n b) i = Tango.cellIdx b i := by
  intro n
  induction n with
  | zero => intro b i _; rfl
  | succ m ih =>
    intro b i hi
    by_cases hf : Tango.forcedMoves b = []
    · simp [Tango.collapseFuel, hf]
    · have hstep : Tango.collapseFuel (m + 1) b =
          Tango.collapseFuel m (Tango.collapsePass b) := by
        simp [Tango.collapseFuel, hf]
      rw [hstep]
      have hp := tango_collapsePass_keep b i hi
      rw [ih (Tango.collapsePass b) i (by rw [hp]; exact hi), hp]

/-! # Claims -/

/-! ## C1 — what is pushed, what is cached

Every solver pushes the collapsed (fixpoint-propagated) form of each
surviving candidate, but **no** solver re-checks the visited set on the
propagated form. The Queens solvers cache the propagated form; the Tango
solver caches the *pre-propagation* candidate, so a pushed propagated state
is generally not in the visited set at all. -/

/-- C1 counterexample: at the first expansion step of `solve` on
`Tango.twoByTwoEmpty` (visited = the start hash, exactly as `solve`
initialises it), the first pushed state is the fully collapsed board
`stepFirstPushed`, yet its canonical serialization is **absent** from the
visited set after the step — the propagated form is pushed without being
marked visited (only the pre-propagation candidates are cached),
contradicting the claim. -/
theorem tango_propagated_form_not_cached :
    Tango.stepPushed.head? = some Tango.stepFirstPushed ∧
    Tango.hashState Tango.stepFirstPushed ∉ Tango.stepVisitedAfter ∧
    Tango.stepVisitedAfter.length = 9 :=
  ⟨by rfl, by decide, by decide⟩

/-- C1 amended: for each surviving candidate, `collapse` is applied to a
fixpoint and the collapsed form is pushed, with no visited re-check on the
propagated form; the Tango solver then caches the *pre-propagation*
candidate hash (first conjunct: every surviving candidate's pre-propagation
hash is in the post-step visited list), while the Queens solver caches the
propagated form (second conjunct: every board on the new stack is an old
stack entry or has its hash in the new visited list). -/
theorem expansion_caching :
    (∀ (v : Tango.Board) (vis : List (List Char)),
       ∀ a ∈ Tango.sortedSurviving v vis,
         Tango.hashState a.state ∈
           vis ++ (Tango.sortedSurviving v vis).map fun x =>
             Tango.hashState x.state) ∧
    (∀ (cands : List Queens.Adj) (stack st : List Queens.Board)
       (visited vi : List (List (Nat × Bool × Bool)))
       (pairs : List (Queens.Adj × Queens.Board)),
       Queens.processPush cands stack visited = some (st, vi, pairs) →
       ∀ b ∈ st, b ∈ stack ∨ Queens.hashState b ∈ vi) := by
  constructor
  · intro v vis a ha
    exact List.mem_append_right _ (List.mem_map_of_mem _ ha)
  · intro cands stack st visited vi pairs hrun b hb
    obtain ⟨hst, hvi, hmem⟩ :=
      queens_processPush_spec cands stack st visited vi pairs hrun
    subst hst
    rcases List.mem_append.mp hb with h | h
    · right
      rw [List.mem_reverse] at h
      rcases List.mem_map.mp h with ⟨pr, hpr, hbeq⟩
      subst hbeq
      rw [hvi]
      exact List.mem_append_right _ (List.mem_map_of_mem _ hpr)
    · exact Or.inl h

/-- C1 witness: the amended theorem applied concretely — the Tango half to
the first candidate of `twoByTwoEmpty`'s first expansion, the Queens half
to the head of the new stack of `fourByFour`'s first expansion. -/
theorem expansion_caching_witness :
    (Tango.stepSorted.headD ⟨⟨⟨0, 0⟩, Tango.Val.m⟩, Tango.twoByTwoEmpty,
        ⟨0, 1⟩⟩ ∈ Tango.stepSorted ∧
     Tango.hashState (Tango.stepSorted.headD ⟨⟨⟨0, 0⟩, Tango.Val.m⟩,
        Tango.twoByTwoEmpty, ⟨0, 1⟩⟩).state ∈
       [Tango.hashState Tango.twoByTwoEmpty] ++
         Tango.stepSorted.map fun x => Tango.hashState x.state) ∧
    (Queens.demoStack.headD Queens.fourByFour ∈ Queens.demoStack ∧
     (Queens.demoStack.headD Queens.fourByFour ∈ ([] : List Queens.Board) ∨
      Queens.hashState (Queens.demoStack.headD Queens.fourByFour) ∈
        Queens.demoVisited)) :=
  ⟨⟨by decide,
    expansion_caching.1 Tango.twoByTwoEmpty
      [Tango.hashState Tango.twoByTwoEmpty] _ (by decide)⟩,
   ⟨by decide,
    expansion_caching.2 Queens.demoCands [] Queens.demoStack
      [Queens.hashState Queens.fourByFour] Queens.demoVisited
      Queens.demoPairs (by rfl) _ (by decide)⟩⟩

/-! ## C3 — propagation idempotence

The fixpoint `collapse` of `src/queens.js` and of the Tango solver is
idempotent (proved below as the amended claim), but the single-pass
`collapse` of `src/unnamed/part_000` is not: on `P0.threeByThree`, the
first pass commits the single-cell region `0` at `(0,0)`, which only then
shrinks region `1` to the single placement `(2,1)`, so a second `collapse`
commits another queen. -/

/-- C3 counterexample: `collapse` of `src/unnamed/part_000` is not
idempotent — on the concrete board `P0.threeByThree`,
`collapse(collapse(S)) ≠ collapse(S)`: the second application places a
queen at `(2,1)` that the first did not. -/
theorem p0_collapse_not_idempotent :
    P0.collapse (P0.collapse P0.threeByThree) ≠
      P0.collapse P0.threeByThree ∧
    (P0.collapse P0.threeByThree).cells.map (fun c => c.q) =
      [true, false, false, false, false, false, false, false, false] ∧
    (P0.collapse (P0.collapse P0.threeByThree)).cells.map (fun c => c.q) =
      [true, false, false, false, false, true, false, false, false] := by
  refine ⟨?_, by decide, by decide⟩
  decide

/-- C3 (amended): collapse is idempotent for the two fixpoint propagators.
The Tango `collapse` satisfies `collapse (collapse b) = collapse b`
unconditionally; the Queens `collapse` of `src/queens.js`, on a
well-formed board, maps any successfully collapsed board back to itself. -/
theorem collapse_idempotent :
    (∀ b : Tango.Board,
      Tango.collapse (Tango.collapse b) = Tango.collapse b) ∧
    ∀ (b c : Queens.Board), b.cells.length = b.width * b.height →
      Queens.collapse b = some c → Queens.collapse c = some c := by
  constructor
  · intro b
    have hfix := tango_collapse_fixed b
    show Tango.collapseFuel _ _ = _
    simp [Tango.collapseFuel, hfix]
  · intro b c hwf hc
    have hmain := queens_collapseFuel_fixed (2 * b.cells.length + 1) b hwf
      (by omega)
    unfold Queens.collapse at hc
    rcases hmain with hnone | ⟨d, hd, hdstep⟩
    · rw [hnone] at hc; cases hc
    · have hdc : d = c := Option.some.inj (hd ▸ hc)
      subst hdc
      show Queens.collapseFuel _ _ = _
      simp [Queens.collapseFuel, hdstep]

set_option maxHeartbeats 4000000 in
/-- C3 witness: the Queens half of `collapse_idempotent` applied to the
concrete 3×3 board `threeByThree`, whose collapse succeeds with
`threeByThreeCollapsed`; collapsing again returns the same board. -/
theorem collapse_idempotent_witness :
    Queens.collapse Queens.threeByThreeCollapsed =
      some Queens.threeByThreeCollapsed :=
  collapse_idempotent.2 Queens.threeByThree Queens.threeByThreeCollapsed
    (by decide) rfl

/-! ## C4 — the balance-propagation example

A 6-wide row holding 2 of symbol A and 1 of symbol B among 3 filled cells
forces **nothing**: A is still below the half-count cap of 3, so every
empty cell of the row admits both symbols and `collapse` leaves the board
unchanged. The propagation example does hold when the row's 3 filled cells
are all symbol A (the cap): then each empty row cell admits only B. -/

/-- C4 counterexample: on the concrete board `Tango.rowTwoAOneB` (row 0 =
`[A, A, B, _, _, _]`, rest empty, no constraints), a single `collapse`
call leaves the board unchanged — in particular the three empty row-0 cells
are *not* filled with symbol B, contradicting the claim. -/
theorem tango_collapse_2A1B_unchanged :
    Tango.collapse Tango.rowTwoAOneB = Tango.rowTwoAOneB ∧
    Tango.cellIdx Tango.rowTwoAOneB 3 = none ∧
    Tango.cellIdx Tango.rowTwoAOneB 4 = none ∧
    Tango.cellIdx Tango.rowTwoAOneB 5 = none := by
  refine ⟨?_, by decide, by decide, by decide⟩
  decide

/-- C4 amended: for a 6-wide row whose 3 filled cells are all symbol A
(reaching the row's half-count cap of 3), with the row's other 3 cells
empty and the rest of the board empty with no constraints, a single
`collapse` call fills all 3 empty cells of that row with symbol B and
touches nothing else: concretely, `collapse` turns `Tango.rowCapA` (row 0 =
`[A, A, _, A, _, _]`) into `Tango.rowCapAFilled` (row 0 =
`[A, A, B, A, B, B]`, all other cells still empty). -/
theorem tango_collapse_capA_fills_row :
    Tango.collapse Tango.rowCapA = Tango.rowCapAFilled := by
  decide

/-! ## C5 — the solve result shape

`solve` does not return the solved board on success: the Queens solvers
return `true`, and the Tango solver returns `true` unless called with
`output = false` (the generator's internal mode), in which case it returns
the solved board itself. Failure is `false` in all cases. -/

/-- C5 counterexample: on the already-solved concrete board
`Tango.twoByTwoSolved`, `solve` (with the default `output = true`) pops a
terminal state within the cap and returns the bare boolean `true` — a value
carrying no board — rather than a success result carrying the final solved
board. -/
theorem tango_solve_returns_bare_true :
    (Tango.solve Tango.twoByTwoSolved Tango.MAX_SOLVER_ITERATIONS
      true).result = Tango.SolveResult.bool true ∧
    Tango.checkWin Tango.twoByTwoSolved = true := by
  constructor
  · decide
  · decide

/-- Characterisation of the Tango search loop's result: either the bare
failure value `false`, or a popped state satisfying `checkWin`, returned as
`true` when `output` is set and as the board itself otherwise. -/
theorem tango_solveLoop_result (output : Bool) :
    ∀ (fuel : Nat) (stack : List Tango.Board) (visited : List (List Char))
      (acc : List Tango.Board),
      (Tango.solveLoop output fuel stack visited acc).result =
          Tango.SolveResult.bool false ∨
      ∃ sol, Tango.checkWin sol = true ∧
        sol ∈ (Tango.solveLoop output fuel stack visited acc).popped ∧
        (Tango.solveLoop output fuel stack visited acc).result =
          (if output then Tango.SolveResult.bool true
           else Tango.SolveResult.board sol) := by
  intro fuel
  induction fuel with
  | zero => intro stack visited acc; left; rfl
  | succ n ih =>
    intro stack visited acc
    cases stack with
    | nil => left; rfl
    | cons v rest =>
      by_cases hw : Tango.checkWin v = true
      · right
        refine ⟨v, hw, ?_, ?_⟩
        · simp only [Tango.solveLoop, if_pos hw]
          simp
        · simp only [Tango.solveLoop, if_pos hw]
      · have hstep : Tango.solveLoop output (n + 1) (v :: rest) visited acc =
            Tango.solveLoop output n
              (((Tango.sortedSurviving v visited).map fun a =>
                Tango.collapse a.state).reverse ++ rest)
              (visited ++ (Tango.sortedSurviving v visited).map fun a =>
                Tango.hashState a.state)
              (v :: acc) := by
          simp only [Tango.solveLoop, if_neg hw]
        rw [hstep]
        exact ih _ _ _

/-- Characterisation of the Queens search loop's outcome: a crash escaping
from `collapse`, the bare failure value `false`, or `true` together with a
popped state satisfying `checkWin`. -/
theorem queens_solveLoop_result :
    ∀ (fuel : Nat) (stack : List Queens.Board)
      (visited : List (List (Nat × Bool × Bool))) (acc : List Queens.Board),
      (∃ p, Queens.solveLoop fuel stack visited acc =
        Queens.SolveOutcome.crash p) ∨
      (∃ p, Queens.solveLoop fuel stack visited acc =
        Queens.SolveOutcome.ok false p) ∨
      (∃ p sol, Queens.solveLoop fuel stack visited acc =
          Queens.SolveOutcome.ok true p ∧ sol ∈ p ∧
          Queens.checkWin sol = true) := by
  intro fuel
  induction fuel with
  | zero =>
    intro stack visited acc
    right; left
    exact ⟨acc.reverse, rfl⟩
  | succ n ih =>
    intro stack visited acc
    cases stack with
    | nil => right; left; exact ⟨acc.reverse, rfl⟩
    | cons v rest =>
      by_cases hw : Queens.checkWin v = true
      · right; right
        refine ⟨(v :: acc).reverse, v, ?_, by simp, hw⟩
        simp only [Queens.solveLoop, if_pos hw]
      · cases hp : Queens.processPush (Queens.sortedSurviving v visited)
            rest visited with
        | none =>
          left
          refine ⟨(v :: acc).reverse, ?_⟩
          simp only [Queens.solveLoop, if_neg hw, hp]
        | some res =>
          obtain ⟨stack', visited', pairs'⟩ := res
          have hstep : Queens.solveLoop (n + 1) (v :: rest) visited acc =
              Queens.solveLoop n stack' visited' (v :: acc) := by
            simp only [Queens.solveLoop, if_neg hw, hp]
          rw [hstep]
          exact ih _ _ _

/-- C5 amended: `solve` returns a bare boolean, not a success value
carrying the board — except in the Tango solver's `output = false` mode
(used internally by the generator), which returns the solved board itself.
Precisely: with `output = false` the Tango result is `false` or a board
satisfying `checkWin`; with `output = true` it is `false` or the bare
`true` with some popped state winning; the Queens solver returns `true`
(with a winning popped state), `false`, or crashes inside `collapse`. -/
theorem solve_result_shape :
    (∀ (b : Tango.Board) (cap : Nat),
      ((Tango.solve b cap false).result = Tango.SolveResult.bool false ∨
       ∃ sol, (Tango.solve b cap false).result =
           Tango.SolveResult.board sol ∧ Tango.checkWin sol = true) ∧
      ((Tango.solve b cap true).result = Tango.SolveResult.bool false ∨
       ((Tango.solve b cap true).result = Tango.SolveResult.bool true ∧
        ∃ sol ∈ (Tango.solve b cap true).popped,
          Tango.checkWin sol = true))) ∧
    (∀ (b : Queens.Board) (cap : Nat),
      (∃ p, Queens.solve b cap = Queens.SolveOutcome.crash p) ∨
      (∃ p, Queens.solve b cap = Queens.SolveOutcome.ok false p) ∨
      (∃ p sol, Queens.solve b cap = Queens.SolveOutcome.ok true p ∧
        sol ∈ p ∧ Queens.checkWin sol = true)) := by
  constructor
  · intro b cap
    constructor
    · rcases tango_solveLoop_result false cap [b] [Tango.hashState b] []
        with h | ⟨sol, hsol, _, hres⟩
      · exact Or.inl h
      · right
        exact ⟨sol, by simpa using hres, hsol⟩
    · rcases tango_solveLoop_result true cap [b] [Tango.hashState b] []
        with h | ⟨sol, hsol, hmem, hres⟩
      · exact Or.inl h
      · right
        exact ⟨by simpa using hres, sol, hmem, hsol⟩
  · intro b cap
    exact queens_solveLoop_result cap [b] [Queens.hashState b] []

/-! ## C6 — generation failures are thrown

`generateGame` throws (`throw new Error(...)`) on an odd requested size and
on an exhausted attempt budget; it does not return a typed failure value
(its only returned values are boards). A JS `throw` is modelled as
`Except.error`. -/

/-- C6 counterexample: for the odd size 5, the balance-family
`generateGame` throws `'Size must be even'` — the failure crosses the
generation boundary as an exception (`Except.error`), not as a returned
failure value. -/
theorem tango_generateGame_odd_throws :
    Tango.generateGame 5 Tango.DEFAULT_GENERATOR_OPTIONS ⟨[]⟩ =
      Except.error "Size must be even" := by
  rfl

/-- C6 amended: for every odd requested size (and any options and random
stream), the balance-family `generateGame` throws the exception
`'Size must be even'`; generation failures are raised as thrown errors, not
returned as failure values. -/
theorem tango_generateGame_odd_throws_general
    (size : Nat) (opts : Tango.GenOptions) (r : Tango.Rng)
    (hodd : size % 2 = 1) :
    Tango.generateGame size opts r = Except.error "Size must be even" := by
  unfold Tango.generateGame
  rw [if_pos (by simp [hodd])]

/-- C6 witness: the amended theorem applied at the odd size 5. -/
theorem tango_generateGame_odd_throws_witness :
    5 % 2 = 1 ∧
    Tango.generateGame 5 Tango.DEFAULT_GENERATOR_OPTIONS ⟨[⟨1, 2⟩]⟩ =
      Except.error "Size must be even" :=
  ⟨rfl,
   tango_generateGame_odd_throws_general 5 Tango.DEFAULT_GENERATOR_OPTIONS
     ⟨[⟨1, 2⟩]⟩ (by decide)⟩

/-! ## C7 — duplicate expansion

Within one Tango `solve` call, distinct surviving candidates can collapse
to the same propagated state; the propagated states are pushed without any
re-deduplication (only the pre-propagation candidates were checked against
the visited set), so the same canonical serialization can be popped twice. -/

/-- C7 counterexample: one `solve` call on the concrete board
`Tango.twoByTwoConstrained` (capped at the source's
`MAX_SOLVER_ITERATIONS`) pops nine states whose canonical serializations
(`hashState`) are *not* pairwise distinct — the same state is expanded more
than once. -/
theorem tango_solve_duplicate_expansion :
    ¬ ((Tango.solve Tango.twoByTwoConstrained Tango.MAX_SOLVER_ITERATIONS
      true).popped.map Tango.hashState).Nodup := by
  decide

/-- C7 (amended): what the `solve` loop does guarantee is deduplication of
the visited cache, not of the popped states — within one call on a
well-formed board, the final `visited` list (the start hash followed by
every hash passed to `cacheState`, in call order) contains no duplicate
serialization, for any iteration budget. -/
theorem tango_visited_insertions_nodup (b : Tango.Board)
    (hwf : b.cells.length = b.width * b.height) (n : Nat) :
    (Tango.solveVisited b n).Nodup := by
  unfold Tango.solveVisited
  refine tango_solveLoopVisited_nodup n [b] [Tango.hashState b] ?_
    (List.nodup_singleton _)
  intro st hst
  rw [List.mem_singleton] at hst
  rw [hst]
  exact hwf

/-- C7 witness: `tango_visited_insertions_nodup` at the concrete 2×2 board
with two search iterations. -/
theorem tango_visited_insertions_nodup_witness :
    Tango.twoByTwoEmpty.cells.length =
      Tango.twoByTwoEmpty.width * Tango.twoByTwoEmpty.height ∧
    (Tango.solveVisited Tango.twoByTwoEmpty 2).Nodup :=
  ⟨by decide, tango_visited_insertions_nodup Tango.twoByTwoEmpty (by decide) 2⟩

/-! ## C8 — an unsatisfied equals-constraint blocks the win check -/

/-- C8: for every balance-family board containing an `equals` constraint
whose two endpoint cells both hold committed values that differ, `checkWin`
returns `false` (the constraint conjunct of the win check fails). -/
theorem tango_checkWin_false_of_violated_equals
    (b : Tango.Board) (c : Tango.Constr) (hc : c ∈ b.constraints)
    (hty : c.type = Tango.CType.equals) (v1 v2 : Tango.Val)
    (ha : Tango.cellIdx b (ind c.a b.width) = some v1)
    (hb : Tango.cellIdx b (ind c.b b.width) = some v2)
    (hne : v1 ≠ v2) : Tango.checkWin b = false := by
  cases hcw : Tango.checkWin b with
  | false => rfl
  | true =>
    exfalso
    unfold Tango.checkWin at hcw
    simp only [Bool.and_eq_true, List.all_eq_true] at hcw
    have hs := hcw.2 c hc
    rw [ha, hb] at hs
    unfold Tango.satisfied at hs
    rw [hty] at hs
    simp only [decide_eq_true_eq, Option.some.injEq] at hs
    exact hne hs

/-- C8 witness: the theorem applied to the concrete 2×1 board
`Tango.equalsViolated`, whose single `equals` constraint joins a committed
sun and a committed moon. -/
theorem tango_checkWin_false_of_violated_equals_witness :
    Tango.checkWin Tango.equalsViolated = false :=
  tango_checkWin_false_of_violated_equals Tango.equalsViolated
    ⟨Tango.CType.equals, ⟨0, 0⟩, ⟨1, 0⟩⟩ (by decide) rfl
    Tango.Val.s Tango.Val.m (by decide) (by decide) (by decide)

/-! ## C2 — frontier push order

The Tango solver sorts candidates ascending (`a.h - b.h`) and pushes in
that order, so the highest-scoring candidate is popped next. The Queens
solver of `src/queens.js` sorts **descending** (`b.h - a.h`) and pushes in
that order, so the candidate popped next is a *lowest*-scoring one. -/

/-- C2 counterexample: on the first expansion of `Queens.threeByThree`
(visited holding only the start hash, as in `solve`), the four pushed
candidates carry scores `400/3, 700/6, 400/4, 800/12` — pushed in
*descending* score order — and the next state popped (the head of the new
stack) is the collapsed child of the *last*, strictly lowest-scoring pushed
candidate (`800/12 < 400/3`), contradicting the claimed ascending push
order with the highest-scoring candidate popped next. -/
theorem queens_push_order_descending_cx :
    (Queens.orderPairs.map fun pr => pr.1.move) =
      [⟨0, 0⟩, ⟨1, 2⟩, ⟨2, 1⟩, ⟨2, 2⟩] ∧
    (Queens.orderPairs.map fun pr => pr.1.h) =
      [⟨400, 3⟩, ⟨700, 6⟩, ⟨400, 4⟩, ⟨800, 12⟩] ∧
    Queens.orderStack.head? =
      (Queens.orderPairs.getLast?.map fun pr => pr.2) ∧
    Q.leB ⟨800, 12⟩ ⟨400, 3⟩ = true ∧ Q.leB ⟨400, 3⟩ ⟨800, 12⟩ = false :=
  ⟨by rfl, by rfl, by rfl, by decide, by decide⟩

set_option maxHeartbeats 2000000 in
/-- C2 amended: in the Tango solver the surviving candidates are sorted and
pushed in ascending score order, so the next state popped is the collapsed
form of a maximal-score candidate; in the Queens solver of `src/queens.js`
they are sorted and pushed in *descending* score order, so the next state
popped is the collapsed form of a minimal-score pushed candidate. (Score
denominators are positive in every non-degenerate board; the hypothesis
makes this explicit.) -/
theorem expansion_push_order :
    (∀ (v : Tango.Board) (vis : List (List Char))
       (hne : Tango.sortedSurviving v vis ≠ [])
       (_ : ∀ a ∈ Tango.surviving v vis, 0 < a.h.den),
       (∀ a ∈ Tango.sortedSurviving v vis,
         Q.leB a.h ((Tango.sortedSurviving v vis).getLast hne).h = true) ∧
       ∀ rest : List Tango.Board,
         (((Tango.sortedSurviving v vis).map fun a =>
             Tango.collapse a.state).reverse ++ rest).head? =
           some (Tango.collapse
             ((Tango.sortedSurviving v vis).getLast hne).state)) ∧
    (∀ (v : Queens.Board) (vis : List (List (Nat × Bool × Bool)))
       (stack st : List Queens.Board) (vi : List (List (Nat × Bool × Bool)))
       (pairs : List (Queens.Adj × Queens.Board))
       (hrun : Queens.processPush (Queens.sortedSurviving v vis) stack vis =
         some (st, vi, pairs))
       (hne : pairs ≠ [])
       (_ : ∀ a ∈ Queens.surviving v vis, 0 < a.h.den),
       (∀ pr ∈ pairs, Q.leB ((pairs.getLast hne).1.h) pr.1.h = true) ∧
       st.head? = some ((pairs.getLast hne).2)) := by
  constructor
  · intro v vis hne hd
    set s := Tango.sortedSurviving v vis with hs
    have hP : ∀ a ∈ s, 0 < a.h.den := by
      intro a ha
      exact hd a ((mem_sortBy _ a _).mp ha)
    have hch : List.Chain' (fun x y => Q.leB x.h y.h = true) s :=
      chain_sortBy _ (fun (a b : Tango.Adj) => Q.leB_total a.h b.h) _
    constructor
    · intro a ha
      exact chain_le_getLast (fun (x y : Tango.Adj) => Q.leB x.h y.h)
        (fun x => 0 < x.h.den)
        (fun x y z hx hy hz => Q.leB_trans hx hy hz)
        (fun x _ => Q.leB_refl x.h) s hP hch hne a ha
    · intro rest
      have hmapne : (s.map fun a => Tango.collapse a.state) ≠ [] := by
        simpa using hne
      rw [List.head?_append]
      rw [List.head?_reverse]
      rw [List.getLast?_eq_getLast _ hmapne]
      rw [List.getLast_map]
      simp
  · intro v vis stack st vi pairs hrun hne hd
    have hsub := queens_processPush_pairs_sublist _ _ _ _ _ _ hrun
    obtain ⟨hst, _, hmem⟩ := queens_processPush_spec _ _ _ _ _ _ hrun
    have hP : ∀ a ∈ Queens.sortedSurviving v vis, 0 < a.h.den := by
      intro a ha
      exact hd a ((mem_sortBy _ a _).mp ha)
    have hch : List.Chain'
        (fun x y => Q.leB y.h x.h = true) (Queens.sortedSurviving v vis) :=
      chain_sortBy _ (fun (a b : Queens.Adj) => Q.leB_total b.h a.h) _
    have hpw : List.Pairwise (fun x y => Q.leB y.h x.h = true)
        (Queens.sortedSurviving v vis) :=
      pairwise_of_chain _ (fun (x : Queens.Adj) => 0 < x.h.den)
        (fun a b c ha hb hc h1 h2 => Q.leB_trans hc hb ha h2 h1) _ hP hch
    have hpwp : List.Pairwise (fun x y => Q.leB y.h x.h = true)
        (pairs.map fun pr => pr.1) := hpw.sublist hsub
    have hPp : ∀ x ∈ (pairs.map fun pr => pr.1), 0 < x.h.den := by
      intro x hx
      rcases List.mem_map.mp hx with ⟨pr, hpr, hx'⟩
      subst hx'
      exact hP pr.1 ((hmem pr hpr).1)
    have hne' : (pairs.map fun pr => pr.1) ≠ [] := by simpa using hne
    constructor
    · intro pr hpr
      have hlast : (pairs.map fun pr => pr.1).getLast hne' =
          (pairs.getLast hne).1 := by
        rw [List.getLast_map]
      have := pairwise_le_getLast (fun (x y : Queens.Adj) => Q.leB y.h x.h)
        (fun x => 0 < x.h.den) (fun x _ => Q.leB_refl x.h) _ hPp hpwp hne'
        pr.1 (List.mem_map_of_mem _ hpr)
      rw [hlast] at this
      exact this
    · rw [hst]
      have hmapne : (pairs.map fun pr => pr.2) ≠ [] := by simpa using hne
      rw [List.head?_append, List.head?_reverse,
        List.getLast?_eq_getLast _ hmapne, List.getLast_map]
      simp

/-- C2 witness: both halves of the amended theorem applied concretely — the
Tango half on `Tango.twoByTwoConstrained`'s first expansion, the Queens
half on `Queens.threeByThree`'s first expansion. -/
theorem expansion_push_order_witness :
    ((Tango.sortedSurviving Tango.twoByTwoConstrained
        [Tango.hashState Tango.twoByTwoConstrained] ≠ []) ∧
     (∀ a ∈ Tango.surviving Tango.twoByTwoConstrained
        [Tango.hashState Tango.twoByTwoConstrained], 0 < a.h.den)) ∧
    (∀ a ∈ Tango.sortedSurviving Tango.twoByTwoConstrained
        [Tango.hashState Tango.twoByTwoConstrained],
      Q.leB a.h ((Tango.sortedSurviving Tango.twoByTwoConstrained
        [Tango.hashState Tango.twoByTwoConstrained]).getLast
          (by decide)).h = true) ∧
    ((Queens.orderRun = some (Queens.orderStack, Queens.orderVisited,
        Queens.orderPairs)) ∧
     (∀ pr ∈ Queens.orderPairs,
       Q.leB ((Queens.orderPairs.getLast (by decide)).1.h) pr.1.h = true) ∧
     Queens.orderStack.head? =
       some ((Queens.orderPairs.getLast (by decide)).2)) := by
  refine ⟨⟨by decide, by decide⟩, ?_, by rfl, ?_, ?_⟩
  · exact (expansion_push_order.1 Tango.twoByTwoConstrained
      [Tango.hashState Tango.twoByTwoConstrained] (by decide) (by decide)).1
  · exact (expansion_push_order.2 Queens.threeByThree
      [Queens.hashState Queens.threeByThree] [] Queens.orderStack
      Queens.orderVisited Queens.orderPairs (by rfl) (by decide)
      (by decide)).1
  · exact (expansion_push_order.2 Queens.threeByThree
      [Queens.hashState Queens.threeByThree] [] Queens.orderStack
      Queens.orderVisited Queens.orderPairs (by rfl) (by decide)
      (by decide)).2

/-! ## C10 — pruning marks are hard exclusions in the push phase -/

/-- C10: in the Queens solver's push phase, a candidate whose applied-move
position carries the pruning mark `m` after propagation contributes
nothing: it appears in no pushed pair, and since the new stack and the new
visited entries are exactly the images of the pushed pairs, its propagated
child is neither pushed onto the frontier nor recorded in the visited set
on its behalf — pruning marks act as hard exclusions, not heuristic
hints. -/
theorem queens_marked_candidate_excluded
    (cands : List Queens.Adj) (stack st : List Queens.Board)
    (visited vi : List (List (Nat × Bool × Bool)))
    (pairs : List (Queens.Adj × Queens.Board))
    (hrun : Queens.processPush cands stack visited = some (st, vi, pairs))
    (a : Queens.Adj) (c : Queens.Board)
    (hcol : Queens.collapse a.state = some c)
    (hm : Queens.positionIsMarked c a.move = true) :
    (∀ pr ∈ pairs, pr.1 ≠ a) ∧
    st = (pairs.map fun pr => pr.2).reverse ++ stack ∧
    vi = visited ++ pairs.map (fun pr => Queens.hashState pr.2) := by
  obtain ⟨h1, h2, h3⟩ :=
    queens_processPush_spec cands stack st visited vi pairs hrun
  refine ⟨?_, h1, h2⟩
  intro pr hpr heq
  obtain ⟨_, hprcol, hprm⟩ := h3 pr hpr
  rw [heq, hcol] at hprcol
  injection hprcol with hceq
  rw [heq] at hprm
  rw [hceq] at hm
  rw [hm] at hprm
  exact Bool.noConfusion hprm

/-- C10 witness: the theorem applied to the first expansion of
`Queens.fourByFour`, whose candidate at `(2,1)` is marked at its own move
after propagation; the push phase completes and the candidate appears in
none of the 14 pushed pairs. -/
theorem queens_marked_candidate_excluded_witness :
    Queens.demoRun =
      some (Queens.demoStack, Queens.demoVisited, Queens.demoPairs) ∧
    Queens.collapse Queens.demoAdj.state = some Queens.demoCollapsed ∧
    Queens.positionIsMarked Queens.demoCollapsed Queens.demoAdj.move = true ∧
    ((∀ pr ∈ Queens.demoPairs, pr.1 ≠ Queens.demoAdj) ∧
     Queens.demoStack =
       (Queens.demoPairs.map fun pr => pr.2).reverse ++ [] ∧
     Queens.demoVisited = [Queens.hashState Queens.fourByFour] ++
       Queens.demoPairs.map (fun pr => Queens.hashState pr.2)) :=
  ⟨by rfl, by rfl, by rfl,
   queens_marked_candidate_excluded Queens.demoCands []
     Queens.demoStack [Queens.hashState Queens.fourByFour]
     Queens.demoVisited Queens.demoPairs (by rfl) Queens.demoAdj
     Queens.demoCollapsed (by rfl) (by rfl)⟩

/-! ## C9 — structural-copy semantics of the transformers

In this embedding every operation is a pure function, so "never mutates
its argument" holds by construction; the verifiable content of the claim
is the copy-and-frame semantics: each transformer returns a board that
agrees with its argument everywhere except at the cells the operation is
meant to change, and changes only the intended field there. -/

/-- C9: frame conditions of the state transformers. `addValueAtPosition`
preserves dimensions, constraints and initial cells and changes no other
cell; `addQueenAtPosition` and `clearPosition` preserve dimensions and
change no other cell, and `addQueenAtPosition` touches only the `q` flag;
`markInvalidPositions` preserves dimensions, touches only `m` flags and
changes no cell outside the listed positions; the Tango `collapse`
preserves dimensions, constraints and initial cells and leaves every
already-filled cell unchanged; a successful Queens `collapse` preserves
dimensions, cell count and every region id. -/
theorem transformers_frame :
    (∀ (b : Tango.Board) (p : Pos) (v : Tango.TCell),
      (Tango.addValueAtPosition b p v).width = b.width ∧
      (Tango.addValueAtPosition b p v).height = b.height ∧
      (Tango.addValueAtPosition b p v).constraints = b.constraints ∧
      (Tango.addValueAtPosition b p v).initialCells = b.initialCells ∧
      ∀ i, i ≠ ind p b.width →
        Tango.cellIdx (Tango.addValueAtPosition b p v) i =
          Tango.cellIdx b i) ∧
    (∀ (b : Queens.Board) (p : Pos),
      (Queens.addQueenAtPosition b p).width = b.width ∧
      (Queens.addQueenAtPosition b p).height = b.height ∧
      (Queens.clearPosition b p).width = b.width ∧
      (Queens.clearPosition b p).height = b.height ∧
      (∀ i, i ≠ ind p b.width →
        Queens.cellIdx (Queens.addQueenAtPosition b p) i =
          Queens.cellIdx b i ∧
        Queens.cellIdx (Queens.clearPosition b p) i = Queens.cellIdx b i) ∧
      ∀ i, (Queens.cellIdx (Queens.addQueenAtPosition b p) i).r =
          (Queens.cellIdx b i).r ∧
        (Queens.cellIdx (Queens.addQueenAtPosition b p) i).m =
          (Queens.cellIdx b i).m) ∧
    (∀ (b : Queens.Board) (pp : List Pos),
      (Queens.markInvalidPositions b pp).width = b.width ∧
      (Queens.markInvalidPositions b pp).height = b.height ∧
      (∀ i, (Queens.cellIdx (Queens.markInvalidPositions b pp) i).r =
          (Queens.cellIdx b i).r ∧
        (Queens.cellIdx (Queens.markInvalidPositions b pp) i).q =
          (Queens.cellIdx b i).q) ∧
      ∀ i, (∀ p ∈ pp, ind p b.width ≠ i) →
        Queens.cellIdx (Queens.markInvalidPositions b pp) i =
          Queens.cellIdx b i) ∧
    (∀ b : Tango.Board,
      (Tango.collapse b).width = b.width ∧
      (Tango.collapse b).height = b.height ∧
      (Tango.collapse b).constraints = b.constraints ∧
      (Tango.collapse b).initialCells = b.initialCells ∧
      ∀ i, Tango.cellIdx b i ≠ none →
        Tango.cellIdx (Tango.collapse b) i = Tango.cellIdx b i) ∧
    ∀ (b c : Queens.Board), Queens.collapse b = some c →
      c.width = b.width ∧ c.height = b.height ∧
      c.cells.length = b.cells.length ∧
      ∀ i, (Queens.cellIdx c i).r = (Queens.cellIdx b i).r := by
  refine ⟨?_, ?_, ?_, ?_, ?_⟩
  · intro b p v
    exact ⟨rfl, rfl, rfl, rfl, fun i hi =>
      tango_cellIdx_addValue b p v i hi⟩
  · intro b p
    refine ⟨rfl, rfl, rfl, rfl, ?_, ?_⟩
    · intro i hi
      exact ⟨queens_cellIdx_addQueen_ne b p i hi,
        queens_cellIdx_clear_ne b p i hi⟩
    · intro i
      exact queens_cellIdx_addQueen_rm b p i
  · intro b pp
    obtain ⟨hw, hh, -, -, -⟩ := queens_fold_mark_facts pp b
    refine ⟨hw, hh, ?_, ?_⟩
    · intro i
      exact queens_mark_rq_all pp b i
    · intro i hni
      exact queens_mark_frame pp b i hni
  · intro b
    obtain ⟨hw, hh, hc, hic, -⟩ := tango_collapseFuel_shape
      (Tango.countEmpties b.cells + 1) b
    exact ⟨hw, hh, hc, hic, fun i hi =>
      tango_collapseFuel_keep (Tango.countEmpties b.cells + 1) b i hi⟩
  · intro b c h
    unfold Queens.collapse at h
    exact queens_collapseFuel_frame _ b c h

/-- C9 witness: the Tango transformer frame of `transformers_frame` at a
concrete board, position and off-target index. -/
theorem transformers_frame_witness :
    (3 : Nat) ≠ ind ⟨0, 0⟩ Tango.twoByTwoEmpty.width ∧
    Tango.cellIdx (Tango.addValueAtPosition Tango.twoByTwoEmpty ⟨0, 0⟩
      (some Tango.Val.s)) 3 = Tango.cellIdx Tango.twoByTwoEmpty 3 :=
  ⟨by decide, (transformers_frame.1 Tango.twoByTwoEmpty ⟨0, 0⟩
    (some Tango.Val.s)).2.2.2.2 3 (by decide)⟩

end LinkedinGames
